import Mathlib

deriving instance DecidableEq for Except

/-!
Shallow embedding of the generic graph engine of graphs/graphs.hpp: the base
adjacency-list Graph template and its specialized subclasses, together with
theorems that check the specification's claims about them.

Modelling conventions:
* the vertex type parameter T is instantiated with Nat (the code is generic
  over an ordered vertex type, and all claims are about orderable vertices);
* the C++ std::set of vertices is a strictly sorted Lean list, std::map is a
  strictly key-sorted association list (both match iteration order), and the
  std::vector adjacency entries are Lean lists preserving insertion order;
* C++ int values (weights, counters, distances) are Lean Int; the operations
  the claims exercise never approach the INT_MAX overflow boundary, and the
  INT_MAX sentinel of getGirth is kept as the literal 2147483647;
* functions that throw C++ exceptions return Except String, or, for the
  mutating addEdge overrides of the variants, a pair of the resulting state
  and a Bool that is true when the call raised;
* the recursive/worklist algorithms take an explicit fuel argument chosen
  large enough that, on states satisfying the data-model invariant, the fuel
  never runs out before the C++ loop would have terminated.
-/

namespace Graphs

/-- Insertion into a strictly sorted duplicate-free list of vertices,
mimicking std::set insert. -/
def setInsert (v : Nat) : List Nat → List Nat
  | [] => [v]
  | h :: t => if v < h then v :: h :: t else if v = h then h :: t else h :: setInsert v t

/-- Lookup in an association list, mimicking std::map find; returns the value
at the first matching key. -/
def alFind {α : Type} (k : Nat) : List (Nat × α) → Option α
  | [] => none
  | p :: t => if p.1 = k then some p.2 else alFind k t

/-- Insert-or-assign into a key-sorted association list, mimicking the write
through std::map operator[]. -/
def alSet {α : Type} (k : Nat) (v : α) : List (Nat × α) → List (Nat × α)
  | [] => [(k, v)]
  | p :: t => if k < p.1 then (k, v) :: p :: t
              else if k = p.1 then (k, v) :: t
              else p :: alSet k v t

/-- Erase a key, mimicking std::map erase. -/
def alErase {α : Type} (k : Nat) (l : List (Nat × α)) : List (Nat × α) :=
  l.filter (fun p => p.1 ≠ k)

/-- Read through std::map operator[] with the map's default value. -/
def mapIndex {α : Type} (dflt : α) (k : Nat) (l : List (Nat × α)) : α :=
  (alFind k l).getD dflt

/-- State of a Graph object: the protected fields of the C++ class
(numVertices, isDirected, isWeighted, adjList, vertices). -/
structure GraphSt where
  numVertices : Int
  isDirected : Bool
  isWeighted : Bool
  adjList : List (Nat × List (Nat × Int))
  vertices : List Nat
deriving Repr, DecidableEq

/-- The state built by the Graph constructor. -/
def emptyGraph (directed weighted : Bool) : GraphSt :=
  ⟨0, directed, weighted, [], []⟩

/-- Adjacency list of a vertex as the algorithms read it (empty when the
vertex has no entry). -/
def adjOf (g : GraphSt) (v : Nat) : List (Nat × Int) :=
  (alFind v g.adjList).getD []

/-- Graph::addVertex. -/
def addVertex (g : GraphSt) (v : Nat) : GraphSt :=
  if g.vertices.contains v then g
  else { g with vertices := setInsert v g.vertices,
                adjList := alSet v [] g.adjList,
                numVertices := g.numVertices + 1 }

/-- Graph::addEdge: ensures both endpoints exist, appends (dest, weight) to
adjList[src], and for undirected graphs also appends (src, weight) to
adjList[dest]. -/
def addEdge (g : GraphSt) (src dest : Nat) (w : Int) : GraphSt :=
  let g1 := addVertex (addVertex g src) dest
  let g2 := { g1 with adjList := alSet src (mapIndex [] src g1.adjList ++ [(dest, w)]) g1.adjList }
  if g2.isDirected then g2
  else { g2 with adjList := alSet dest (mapIndex [] dest g2.adjList ++ [(src, w)]) g2.adjList }

/-- Graph::deleteVertex: removes the vertex, its adjacency entry, and every
edge pointing to it; returns false when the vertex is absent. -/
def deleteVertex (g : GraphSt) (v : Nat) : GraphSt × Bool :=
  if g.vertices.contains v then
    let g1 := { g with vertices := g.vertices.filter (fun x => x ≠ v),
                       numVertices := g.numVertices - 1,
                       adjList := alErase v g.adjList }
    ({ g1 with adjList := g1.adjList.map (fun p => (p.1, p.2.filter (fun q => q.1 ≠ v))) }, true)
  else (g, false)

/-- Graph::deleteEdge: removes every src-to-dest entry, and for undirected
graphs every dest-to-src entry; returns true iff a forward entry was found. -/
def deleteEdge (g : GraphSt) (src dest : Nat) : GraphSt × Bool :=
  if g.vertices.contains src ∧ g.vertices.contains dest then
    let l1 := mapIndex [] src g.adjList
    let found := l1.any (fun p => p.1 = dest)
    let g1 := { g with adjList := alSet src (l1.filter (fun p => p.1 ≠ dest)) g.adjList }
    if g1.isDirected then (g1, found)
    else
      let l2 := mapIndex [] dest g1.adjList
      ({ g1 with adjList := alSet dest (l2.filter (fun p => p.1 ≠ src)) g1.adjList }, found)
  else (g, false)

/-- Graph::getNumVertices: returns the cached counter. -/
def getNumVertices (g : GraphSt) : Int := g.numVertices

/-- Graph::getNumEdges: sums the adjacency list sizes and halves the total
for undirected graphs. -/
def getNumEdges (g : GraphSt) : Int :=
  let count : Int := g.adjList.foldl (fun a p => a + p.2.length) 0
  if g.isDirected then count else count / 2

/-- Graph::getDegree: length of the adjacency list (out-degree for directed
graphs); raises when the vertex is absent. -/
def getDegree (g : GraphSt) (v : Nat) : Except String Int :=
  if g.vertices.contains v then
    match alFind v g.adjList with
    | none => .ok 0
    | some l => .ok l.length
  else .error "Vertex not found in graph"

/-- Inner neighbor loop of Graph::getDistance's BFS: processes the remaining
neighbors of the popped vertex cur, threading (queue, visited, distance map);
returns inl d on the early exit that reaches dest at distance d. -/
def distInner (dest cur : Nat) :
    List (Nat × Int) → List Nat → List Nat → List (Nat × Int) →
    Sum Int (List Nat × List Nat × List (Nat × Int))
  | [], q, vis, dist => .inr (q, vis, dist)
  | nb :: rest, q, vis, dist =>
    if nb.1 ∈ vis then distInner dest cur rest q vis dist
    else
      let d2 := mapIndex 0 cur dist + 1
      if nb.1 = dest then .inl d2
      else distInner dest cur rest (q ++ [nb.1]) (nb.1 :: vis) (alSet nb.1 d2 dist)

/-- Outer while loop of Graph::getDistance's BFS. -/
def distLoop (g : GraphSt) (dest : Nat) :
    Nat → List Nat → List Nat → List (Nat × Int) → Int
  | 0, _, _, _ => -1
  | _ + 1, [], _, _ => -1
  | fuel + 1, cur :: q, vis, dist =>
    match distInner dest cur (adjOf g cur) q vis dist with
    | .inl d => d
    | .inr (q2, vis2, dist2) => distLoop g dest fuel q2 vis2 dist2

/-- Graph::getDistance: BFS hop count from src to dest with early exit,
-1 when no path exists; raises when either endpoint is absent. -/
def getDistance (g : GraphSt) (src dest : Nat) : Except String Int :=
  if g.vertices.contains src ∧ g.vertices.contains dest then
    if src = dest then .ok 0
    else .ok (distLoop g dest (g.vertices.length + 1) [src] [src] [(src, 0)])
  else .error "Vertex not found in graph"

/-- Neighbor scan of Graph::BFS: enqueues the not-yet-visited neighbors in
adjacency order, marking them visited at enqueue time. -/
def bfsScan : List (Nat × Int) → List Nat → List Nat → List Nat × List Nat
  | [], q, vis => (q, vis)
  | nb :: rest, q, vis =>
    if nb.1 ∈ vis then bfsScan rest q vis
    else bfsScan rest (q ++ [nb.1]) (nb.1 :: vis)

/-- Worklist loop of Graph::BFS collecting the visitation order (the C++ code
batches pops per level for display purposes only; the pop order and hence the
returned traversal are those of the single FIFO queue). -/
def bfsLoop (g : GraphSt) : Nat → List Nat → List Nat → List Nat → List Nat
  | 0, _, _, tr => tr
  | _ + 1, [], _, tr => tr
  | fuel + 1, cur :: q, vis, tr =>
    let s := bfsScan (adjOf g cur) q vis
    bfsLoop g fuel s.1 s.2 (tr ++ [cur])

/-- Graph::BFS: returns the traversal order, raising when the start vertex is
absent (the parent and level maps it also builds feed only the display). -/
def BFS (g : GraphSt) (start : Nat) : Except String (List Nat) :=
  if g.vertices.contains start then
    .ok (bfsLoop g (g.vertices.length + 1) [start] [start] [])
  else .error "Start vertex not found in graph"

/-- Graph::DFSUtil: marks the vertex visited, records it, then recurses into
the not-yet-visited neighbors in adjacency order; the state is the pair
(visited, traversal). -/
def dfsVisit (g : GraphSt) : Nat → Nat → List Nat × List Nat → List Nat × List Nat
  | 0, _, st => st
  | fuel + 1, v, st =>
    (adjOf g v).foldl
      (fun acc nb => if nb.1 ∈ acc.1 then acc else dfsVisit g fuel nb.1 acc)
      (v :: st.1, st.2 ++ [v])

/-- Graph::DFS: returns the discovery order, raising when the start vertex is
absent (discovery/finish timestamps feed only the display). -/
def DFS (g : GraphSt) (start : Nat) : Except String (List Nat) :=
  if g.vertices.contains start then
    .ok (dfsVisit g (g.vertices.length + 1) start ([], [])).2
  else .error "Start vertex not found in graph"

/-- Total number of adjacency entries, used to size the fuel of getGirth. -/
def totalAdj (g : GraphSt) : Nat :=
  g.adjList.foldl (fun a p => a + p.2.length) 0

/-- Seeding loop of Graph::getGirth: pushes every neighbor of the root with
parent root and distance 1. -/
def girthSeed (start : Nat) :
    List (Nat × Int) → List (Nat × Nat) → List (Nat × Int) →
    List (Nat × Nat) × List (Nat × Int)
  | [], q, dist => (q, dist)
  | nb :: rest, q, dist =>
    girthSeed start rest (q ++ [(nb.1, start)]) (alSet nb.1 1 dist)

/-- Neighbor scan of Graph::getGirth's BFS: undiscovered neighbors are pushed
with distance one more than the current vertex; a discovered non-parent
neighbor contributes the candidate cycle length
distance[current] + distance[neighbor] + 1. -/
def girthScan (cur par : Nat) :
    List (Nat × Int) → List (Nat × Nat) → List (Nat × Int) → Int →
    List (Nat × Nat) × List (Nat × Int) × Int
  | [], q, dist, gir => (q, dist, gir)
  | nb :: rest, q, dist, gir =>
    match alFind nb.1 dist with
    | none =>
      girthScan cur par rest (q ++ [(nb.1, cur)])
        (alSet nb.1 (mapIndex 0 cur dist + 1) dist) gir
    | some dn =>
      if nb.1 ≠ par then
        girthScan cur par rest q dist (min gir (mapIndex 0 cur dist + dn + 1))
      else girthScan cur par rest q dist gir

/-- Worklist loop of Graph::getGirth's per-root BFS over (vertex, parent)
pairs. -/
def girthLoop (g : GraphSt) : Nat → List (Nat × Nat) → List (Nat × Int) → Int → Int
  | 0, _, _, gir => gir
  | _ + 1, [], _, gir => gir
  | fuel + 1, (cur, par) :: q, dist, gir =>
    let s := girthScan cur par (adjOf g cur) q dist gir
    girthLoop g fuel s.1 s.2.1 s.2.2

/-- One root iteration of Graph::getGirth. -/
def girthFromRoot (g : GraphSt) (gir : Int) (start : Nat) : Int :=
  let s := girthSeed start (adjOf g start) [] (alSet start 0 [])
  girthLoop g (2 * totalAdj g + 2) s.1 s.2 gir

/-- Graph::getGirth: BFS from every root accumulating the minimum candidate
cycle length, starting from the INT_MAX sentinel; returns -1 when no
candidate was found. -/
def getGirth (g : GraphSt) : Int :=
  if g.vertices.isEmpty then -1
  else
    let gir := g.vertices.foldl (girthFromRoot g) 2147483647
    if gir = 2147483647 then -1 else gir

/-- Graph::join: raises on mismatched directedness or weightedness, then adds
all vertices of the other graph and every edge of it that is not already
present (duplicate check by destination only); for undirected graphs an edge
is only re-inserted when src is less than dest. -/
def join (g other : GraphSt) : Except String GraphSt :=
  if g.isDirected ≠ other.isDirected then
    .error "Cannot join directed and undirected graphs"
  else if g.isWeighted ≠ other.isWeighted then
    .error "Cannot join weighted and unweighted graphs"
  else
    let g1 := other.vertices.foldl addVertex g
    .ok (other.adjList.foldl (fun acc p =>
      p.2.foldl (fun acc2 nb =>
        let dup := (mapIndex [] p.1 acc2.adjList).any (fun e => e.1 = nb.1)
        if dup then acc2
        else if acc2.isDirected || p.1 < nb.1 then addEdge acc2 p.1 nb.1 nb.2
        else acc2) acc) g1)

/-- Graph::operator+: builds a fresh graph with this graph's flags, copies
this graph's vertices and edges (for undirected graphs only the src-less-
than-dest half of each edge), then joins the other graph into the copy. -/
def gplus (g other : GraphSt) : Except String GraphSt :=
  let r1 := g.vertices.foldl addVertex (emptyGraph g.isDirected g.isWeighted)
  let r2 := g.adjList.foldl (fun acc p =>
    p.2.foldl (fun acc2 nb =>
      if g.isDirected || p.1 < nb.1 then addEdge acc2 p.1 nb.1 nb.2
      else acc2) acc) r1
  join r2 other

/-- NullGraph::addEdge: always raises, leaving the state untouched. -/
def nullAddEdge (g : GraphSt) (_src _dest : Nat) (_w : Int) : GraphSt × Bool :=
  (g, true)

/-- TrivialGraph constructor: an undirected unweighted graph holding exactly
the one vertex passed at construction. -/
def trivialGraph (v : Nat) : GraphSt :=
  addVertex (emptyGraph false false) v

/-- TrivialGraph::addEdge: always raises, leaving the state untouched. -/
def trivialAddEdge (g : GraphSt) (_src _dest : Nat) (_w : Int) : GraphSt × Bool :=
  (g, true)

/-- CompleteGraph::addVertex connects the new vertex to every vertex of the
live std::set it is iterating; the first addEdge call inserts the new vertex
into that same set, so when the new vertex compares greater than the minimum
existing vertex the iteration reaches it as well and a self-loop edge is
added. The list iterated here is exactly the sequence of vertices the C++
range-for visits. -/
def completeAddVertex (g : GraphSt) (v : Nat) : GraphSt :=
  if g.vertices.contains v then g
  else
    let iter := match g.vertices with
      | [] => []
      | m :: _ => if m < v then setInsert v g.vertices else g.vertices
    addVertex (iter.foldl (fun a u => addEdge a u v 1) g) v

/-- DirectedAcyclicGraph::hasCycleDFS: depth-first cycle detection with a
recursion stack; the state is (found, visited, recStack). -/
def dagCycleDFS (g : GraphSt) : Nat → Nat → List Nat → List Nat → Bool × List Nat × List Nat
  | 0, _, vis, stk => (false, vis, stk)
  | fuel + 1, v, vis, stk =>
    let r := (adjOf g v).foldl
      (fun st nb =>
        if st.1 then st
        else if nb.1 ∈ st.2.1 then
          if nb.1 ∈ st.2.2 then (true, st.2.1, st.2.2) else st
        else dagCycleDFS g fuel nb.1 st.2.1 st.2.2)
      (false, v :: vis, v :: stk)
    if r.1 then r else (false, r.2.1, r.2.2.filter (fun x => x ≠ v))

/-- Cycle scan of DirectedAcyclicGraph::addEdge: runs hasCycleDFS from every
not-yet-visited vertex, sharing the visited set across roots. -/
def dagHasCycle (g : GraphSt) : Bool :=
  (g.vertices.foldl
    (fun st v =>
      if st.1 then st
      else if v ∈ st.2.1 then st
      else dagCycleDFS g (g.vertices.length + 1) v st.2.1 st.2.2)
    (false, [], [])).1

/-- DirectedAcyclicGraph::addEdge: inserts the edge, then rescans the whole
graph for a cycle; on detection it erases the src-to-dest entries it just
added and raises. -/
def dagAddEdge (g : GraphSt) (src dest : Nat) (w : Int) : GraphSt × Bool :=
  let g1 := addEdge g src dest w
  if dagHasCycle g1 then
    ({ g1 with adjList := (alSet src
                ((mapIndex [] src g1.adjList).filter (fun p => p.1 ≠ dest)) g1.adjList) },
     true)
  else (g1, false)

/-- Worklist loop of BipartiteGraph::isBipartiteCheck for one component:
colors uncolored neighbors with the opposite color and fails on a same-color
conflict; returns the extended color map, or none on a conflict. -/
def bipLoop (g : GraphSt) : Nat → List Nat → List (Nat × Int) → Option (List (Nat × Int))
  | 0, _, col => some col
  | _ + 1, [], col => some col
  | fuel + 1, cur :: q, col =>
    let cv := mapIndex 0 cur col
    let r := (adjOf g cur).foldl
      (fun st nb =>
        match st with
        | none => none
        | some (q2, col2) =>
          match alFind nb.1 col2 with
          | none => some (q2 ++ [nb.1], alSet nb.1 (1 - cv) col2)
          | some c => if c = cv then none else some (q2, col2))
      (some (q, col))
    match r with
    | none => none
    | some (q2, col2) => bipLoop g fuel q2 col2

/-- BipartiteGraph::isBipartiteCheck: BFS two-coloring started from every
still-uncolored vertex, sharing the color map across components. -/
def bipCheck (g : GraphSt) : Bool :=
  (g.vertices.foldl
    (fun st start =>
      match st with
      | none => none
      | some col =>
        if (alFind start col).isSome then some col
        else bipLoop g (g.vertices.length + 1) [start] (alSet start 0 col))
    (some [])).isSome

/-- BipartiteGraph::addEdge: inserts the edge, then rechecks bipartiteness of
the whole graph; on failure it erases the src-to-dest and dest-to-src entries
it just added and raises. -/
def bipAddEdge (g : GraphSt) (src dest : Nat) (w : Int) : GraphSt × Bool :=
  let g1 := addEdge g src dest w
  if bipCheck g1 then (g1, false)
  else
    let g2 := { g1 with adjList := (alSet src
                  ((mapIndex [] src g1.adjList).filter (fun p => p.1 ≠ dest)) g1.adjList) }
    let g3 := { g2 with adjList := (alSet dest
                  ((mapIndex [] dest g2.adjList).filter (fun p => p.1 ≠ src)) g2.adjList) }
    (g3, true)

/-! Specification-side definitions: the edge relation and walks of a graph
state, the data-model invariants, and the operation alphabets the invariant
claims quantify over. -/

/-- There is an adjacency entry from u to v. -/
def edgeB (g : GraphSt) (u v : Nat) : Bool :=
  (adjOf g u).any (fun p => p.1 == v)

/-- Walk g u v n: the adjacency structure contains a walk of n edges from u
to v. -/
inductive Walk (g : GraphSt) : Nat → Nat → Nat → Prop
  | nil (u : Nat) : Walk g u u 0
  | cons {u x v : Nat} {n : Nat} (h : edgeB g u x = true) (hw : Walk g x v n) :
      Walk g u v (n + 1)

/-- Undirected symmetry invariant: every adjacency entry (n, w) of v is
mirrored by an entry (v, w) of n. -/
def Sym (g : GraphSt) : Prop :=
  ∀ v n : Nat, ∀ w : Int, (n, w) ∈ adjOf g v → (v, w) ∈ adjOf g n

/-- Neighbor closure: every vertex referenced as a neighbor is a member of
the vertex set (the data-model invariant of the specification). -/
def WfG (g : GraphSt) : Prop :=
  ∀ p ∈ g.adjList, ∀ nb ∈ p.2, nb.1 ∈ g.vertices

/-- Structural invariant of a graph state: the vertex list is strictly
sorted (it models a std::set), the cached counter getNumVertices returns
exactly the number of vertices, and every adjacency-map key is a member of
the vertex set. -/
def Inv (g : GraphSt) : Prop :=
  List.Chain' (· < ·) g.vertices ∧
  getNumVertices g = (g.vertices.length : Int) ∧
  ∀ p ∈ g.adjList, p.1 ∈ g.vertices

/-- Mutating operation alphabet of the base Graph class. -/
inductive GOp : Type
  | addV : Nat → GOp
  | addE : Nat → Nat → Int → GOp
  | delV : Nat → GOp
  | delE : Nat → Nat → GOp

/-- Apply a base-class mutation. -/
def applyGOp (g : GraphSt) : GOp → GraphSt
  | GOp.addV v => addVertex g v
  | GOp.addE s d w => addEdge g s d w
  | GOp.delV v => (deleteVertex g v).1
  | GOp.delE s d => (deleteEdge g s d).1

/-- Edge operations available on a TrivialGraph beyond the inherited vertex
mutations. -/
inductive TOp : Type
  | addE : Nat → Nat → Int → TOp
  | delE : Nat → Nat → TOp

/-- Apply a TrivialGraph edge operation. -/
def applyTOp (g : GraphSt) : TOp → GraphSt
  | TOp.addE s d w => (trivialAddEdge g s d w).1
  | TOp.delE s d => (deleteEdge g s d).1

/-- Mutating operation alphabet of the base class and all variants (the
addEdge overrides keep their post-raise states; join keeps the untouched
state when it raises on mismatched flags). -/
inductive AOp : Type
  | addV : Nat → AOp
  | addE : Nat → Nat → Int → AOp
  | delV : Nat → AOp
  | delE : Nat → Nat → AOp
  | nullAddE : Nat → Nat → Int → AOp
  | trivAddE : Nat → Nat → Int → AOp
  | compAddV : Nat → AOp
  | dagAddE : Nat → Nat → Int → AOp
  | bipAddE : Nat → Nat → Int → AOp
  | joinOp : GraphSt → AOp

/-- Apply any public mutating operation. -/
def applyAOp (g : GraphSt) : AOp → GraphSt
  | AOp.addV v => addVertex g v
  | AOp.addE s d w => addEdge g s d w
  | AOp.delV v => (deleteVertex g v).1
  | AOp.delE s d => (deleteEdge g s d).1
  | AOp.nullAddE s d w => (nullAddEdge g s d w).1
  | AOp.trivAddE s d w => (trivialAddEdge g s d w).1
  | AOp.compAddV v => completeAddVertex g v
  | AOp.dagAddE s d w => (dagAddEdge g s d w).1
  | AOp.bipAddE s d w => (bipAddEdge g s d w).1
  | AOp.joinOp other => match join g other with
    | Except.ok r => r
    | Except.error _ => g

/-! Concrete scenario graphs used by individual claims. -/

/-- Directed graph with edges 1 to 2, 1 to 3, 2 to 3 (inserted in that
order): acyclic, yet getGirth reports 3. -/
def girthCex : GraphSt :=
  addEdge (addEdge (addEdge (emptyGraph true false) 1 2 1) 1 3 1) 2 3 1

/-- CompleteGraph built by addVertex 1, 2, 3, 4 in ascending order. -/
def cg4 : GraphSt := [1, 2, 3, 4].foldl completeAddVertex (emptyGraph false false)

/-- Directed graph of Scenario E: adjacency 1 to [2, 3], 2 to [4]. -/
def scenE : GraphSt :=
  addEdge (addEdge (addEdge (emptyGraph true false) 1 2 1) 1 3 1) 2 4 1

/-- Undirected graph holding the single edge 1 to 2. -/
def oneEdge : GraphSt := addEdge (emptyGraph false false) 1 2 1

/-- Undirected graph with edge 1 to 2 and the isolated vertex 3. -/
def edgePlusIso : GraphSt := addVertex oneEdge 3

/-- DAG built by inserting edges 0 to 1 and 1 to 2. -/
def dagChain : GraphSt :=
  (dagAddEdge (dagAddEdge (emptyGraph true false) 0 1 1).1 1 2 1).1

/-- BipartiteGraph built by inserting edges 0 to 1 and 1 to 2. -/
def bipPath : GraphSt :=
  (bipAddEdge (bipAddEdge (emptyGraph false false) 0 1 1).1 1 2 1).1

/-! Lemmas about the container helpers. -/

theorem contains_iff_mem (l : List Nat) (x : Nat) : l.contains x = true ↔ x ∈ l := by
  induction l with
  | nil => simp
  | cons h t ih => simp [List.contains]

theorem mem_setInsert (x v : Nat) (l : List Nat) :
    x ∈ setInsert v l ↔ x = v ∨ x ∈ l := by
  induction l with
  | nil => simp [setInsert]
  | cons h t ih =>
    simp only [setInsert]
    by_cases h1 : v < h
    · simp [h1]
    · by_cases h2 : v = h
      · subst h2
        rw [if_neg h1, if_pos rfl]
        simp only [List.mem_cons]
        tauto
      · rw [if_neg h1, if_neg h2]
        simp only [List.mem_cons, ih]
        tauto

theorem length_setInsert (v : Nat) (l : List Nat) (hv : v ∉ l) :
    (setInsert v l).length = l.length + 1 := by
  induction l with
  | nil => simp [setInsert]
  | cons h t ih =>
    simp only [setInsert]
    by_cases h1 : v < h
    · simp [h1]
    · by_cases h2 : v = h
      · exact absurd (show v ∈ h :: t by simp [h2]) hv
      · simp only [h1, h2, if_neg, if_false, List.length_cons]
        rw [ih (fun hm => hv (List.mem_cons_of_mem _ hm))]

theorem head_setInsert (v : Nat) (l : List Nat) :
    (setInsert v l).head? = some v ∨ (setInsert v l).head? = l.head? := by
  cases l with
  | nil => simp [setInsert]
  | cons h t =>
    simp only [setInsert]
    by_cases h1 : v < h
    · simp [h1]
    · by_cases h2 : v = h
      · simp [h1, h2]
      · simp [h1, h2]

theorem chain'_setInsert (v : Nat) (l : List Nat) (hl : List.Chain' (· < ·) l) :
    List.Chain' (· < ·) (setInsert v l) := by
  induction l with
  | nil => simp [setInsert]
  | cons h t ih =>
    rw [List.chain'_cons'] at hl
    simp only [setInsert]
    by_cases h1 : v < h
    · rw [if_pos h1, List.chain'_cons']
      refine ⟨?_, List.chain'_cons'.2 hl⟩
      intro y hy
      simp at hy
      omega
    · by_cases h2 : v = h
      · rw [if_neg h1, if_pos h2]
        exact List.chain'_cons'.2 hl
      · rw [if_neg h1, if_neg h2, List.chain'_cons']
        refine ⟨?_, ih hl.2⟩
        intro y hy
        rcases head_setInsert v t with hc | hc
        · rw [hc] at hy
          simp at hy
          omega
        · rw [hc] at hy
          exact hl.1 y hy

theorem alFind_alSet_self {α : Type} (k : Nat) (v : α) (l : List (Nat × α)) :
    alFind k (alSet k v l) = some v := by
  induction l with
  | nil => simp [alSet, alFind]
  | cons p t ih =>
    simp only [alSet]
    by_cases h1 : k < p.1
    · simp [h1, alFind]
    · by_cases h2 : k = p.1
      · simp [h1, h2, alFind]
      · have hne : ¬ p.1 = k := by omega
        simp [h1, h2, alFind, hne, ih]

theorem alFind_alSet_other {α : Type} (k k' : Nat) (v : α) (l : List (Nat × α))
    (hk : k' ≠ k) : alFind k' (alSet k v l) = alFind k' l := by
  induction l with
  | nil => simp [alSet, alFind, Ne.symm hk]
  | cons p t ih =>
    simp only [alSet]
    by_cases h1 : k < p.1
    · rw [if_pos h1]
      simp only [alFind, Ne.symm hk, if_false]
    · by_cases h2 : k = p.1
      · rw [if_neg h1, if_pos h2]
        have hp : ¬ p.1 = k' := by omega
        have hkk : ¬ ((k, v) : Nat × α).1 = k' := fun hc => hk (hc.symm)
        simp only [alFind]
        rw [if_neg hkk, if_neg hp]
      · rw [if_neg h1, if_neg h2]
        simp only [alFind]
        split
        · rfl
        · exact ih

theorem mem_alSet {α : Type} (q : Nat × α) (k : Nat) (v : α) (l : List (Nat × α))
    (h : q ∈ alSet k v l) : q = (k, v) ∨ q ∈ l := by
  induction l with
  | nil => simpa [alSet] using h
  | cons p t ih =>
    simp only [alSet] at h
    by_cases h1 : k < p.1
    · rw [if_pos h1] at h
      simp only [List.mem_cons] at h
      rcases h with h | h | h
      · exact Or.inl h
      · exact Or.inr (by simp [h])
      · exact Or.inr (List.mem_cons_of_mem _ h)
    · by_cases h2 : k = p.1
      · rw [if_neg h1, if_pos h2] at h
        simp only [List.mem_cons] at h
        rcases h with h | h
        · exact Or.inl h
        · exact Or.inr (List.mem_cons_of_mem _ h)
      · rw [if_neg h1, if_neg h2] at h
        simp only [List.mem_cons] at h
        rcases h with h | h
        · exact Or.inr (by simp [h])
        · rcases ih h with h' | h'
          · exact Or.inl h'
          · exact Or.inr (List.mem_cons_of_mem _ h')

theorem alFind_mem {α : Type} (k : Nat) (v : α) (l : List (Nat × α))
    (h : alFind k l = some v) : (k, v) ∈ l := by
  induction l with
  | nil => simp [alFind] at h
  | cons p t ih =>
    simp only [alFind] at h
    by_cases h1 : p.1 = k
    · simp only [if_pos h1, Option.some.injEq] at h
      have : (k, v) = p := by
        cases p
        simp_all
      rw [this]
      exact List.mem_cons_self _ _
    · simp only [if_neg h1] at h
      exact List.mem_cons_of_mem _ (ih h)

theorem alFind_eq_none {α : Type} (k : Nat) (l : List (Nat × α))
    (h : ∀ p ∈ l, p.1 ≠ k) : alFind k l = none := by
  induction l with
  | nil => rfl
  | cons p t ih =>
    simp only [alFind]
    have := h p (List.mem_cons_self p t)
    simp [this]
    exact ih (fun q hq => h q (List.mem_cons_of_mem _ hq))

theorem alFind_map {α β : Type} (k : Nat) (f : α → β) (l : List (Nat × α)) :
    alFind k (l.map (fun p => (p.1, f p.2))) = (alFind k l).map f := by
  induction l with
  | nil => rfl
  | cons p t ih =>
    simp only [List.map_cons, alFind]
    by_cases h : p.1 = k
    · simp [h]
    · simp [h, ih]

theorem alFind_alErase_self {α : Type} (k : Nat) (l : List (Nat × α)) :
    alFind k (alErase k l) = none := by
  apply alFind_eq_none
  intro p hp
  simp only [alErase, List.mem_filter, decide_eq_true_eq] at hp
  exact hp.2

theorem alFind_alErase_other {α : Type} (k k' : Nat) (l : List (Nat × α))
    (hk : k' ≠ k) : alFind k' (alErase k l) = alFind k' l := by
  induction l with
  | nil => rfl
  | cons p t ih =>
    by_cases h : p.1 = k
    · have he : alErase k (p :: t) = alErase k t := by simp [alErase, h]
      have hp : ¬ p.1 = k' := by omega
      rw [he, ih]
      simp [alFind, hp]
    · have he : alErase k (p :: t) = p :: alErase k t := by simp [alErase, h]
      rw [he]
      by_cases h2 : p.1 = k'
      · simp [alFind, h2]
      · simp only [alFind, h2, if_false]
        exact ih

/-! Lemmas about the basic graph mutations. -/

theorem addVertex_of_mem (g : GraphSt) (v : Nat) (h : v ∈ g.vertices) :
    addVertex g v = g := by
  rw [addVertex, if_pos ((contains_iff_mem _ _).2 h)]

theorem addVertex_of_not_mem (g : GraphSt) (v : Nat) (h : v ∉ g.vertices) :
    addVertex g v = { g with vertices := setInsert v g.vertices,
                             adjList := alSet v [] g.adjList,
                             numVertices := g.numVertices + 1 } := by
  rw [addVertex, if_neg (fun hc => h ((contains_iff_mem _ _).1 hc))]

theorem mem_vertices_addVertex (g : GraphSt) (v x : Nat) :
    x ∈ (addVertex g v).vertices ↔ x = v ∨ x ∈ g.vertices := by
  by_cases h : v ∈ g.vertices
  · rw [addVertex_of_mem g v h]
    constructor
    · exact Or.inr
    · rintro (rfl | hx)
      · exact h
      · exact hx
  · rw [addVertex_of_not_mem g v h]
    exact mem_setInsert x v g.vertices

theorem addVertex_fields (g : GraphSt) (v : Nat) :
    (addVertex g v).isDirected = g.isDirected ∧
    (addVertex g v).isWeighted = g.isWeighted := by
  by_cases h : v ∈ g.vertices
  · rw [addVertex_of_mem g v h]
    exact ⟨rfl, rfl⟩
  · rw [addVertex_of_not_mem g v h]
    exact ⟨rfl, rfl⟩

theorem adjOf_addVertex_of_mem (g : GraphSt) (v x : Nat) (h : v ∈ g.vertices) :
    adjOf (addVertex g v) x = adjOf g x := by
  rw [addVertex_of_mem g v h]

theorem addEdge_fields_of_mem (g : GraphSt) (s d : Nat) (w : Int)
    (hs : s ∈ g.vertices) (hd : d ∈ g.vertices) :
    (addEdge g s d w).vertices = g.vertices ∧
    (addEdge g s d w).numVertices = g.numVertices ∧
    (addEdge g s d w).isDirected = g.isDirected ∧
    (addEdge g s d w).isWeighted = g.isWeighted := by
  rw [addEdge, addVertex_of_mem g s hs, addVertex_of_mem g d hd]
  cases hdir : g.isDirected <;> simp [hdir]

theorem adjOf_addEdge_dir (g : GraphSt) (s d : Nat) (w : Int)
    (hs : s ∈ g.vertices) (hd : d ∈ g.vertices) (hdir : g.isDirected = true)
    (x : Nat) :
    adjOf (addEdge g s d w) x =
      if x = s then adjOf g s ++ [(d, w)] else adjOf g x := by
  rw [addEdge, addVertex_of_mem g s hs, addVertex_of_mem g d hd]
  simp only [hdir, if_pos]
  by_cases hx : x = s
  · subst hx
    simp [adjOf, alFind_alSet_self, mapIndex]
  · simp [hx, adjOf, alFind_alSet_other s x _ _ hx]

theorem adjOf_addEdge_undir (g : GraphSt) (s d : Nat) (w : Int)
    (hs : s ∈ g.vertices) (hd : d ∈ g.vertices) (hdir : g.isDirected = false)
    (x : Nat) :
    adjOf (addEdge g s d w) x =
      if x = d then
        (if d = s then adjOf g s ++ [(d, w), (s, w)] else adjOf g d ++ [(s, w)])
      else if x = s then adjOf g s ++ [(d, w)]
      else adjOf g x := by
  rw [addEdge, addVertex_of_mem g s hs, addVertex_of_mem g d hd]
  simp only [hdir, Bool.false_eq_true, if_false]
  by_cases hx : x = d
  · subst hx
    by_cases hxs : x = s
    · subst hxs
      simp [adjOf, mapIndex, alFind_alSet_self]
    · simp [hxs, adjOf, mapIndex, alFind_alSet_self, alFind_alSet_other s x _ _ hxs]
  · by_cases hxs : x = s
    · subst hxs
      simp [hx, adjOf, mapIndex, alFind_alSet_self, alFind_alSet_other d x _ _ hx]
    · simp [hx, hxs, adjOf, mapIndex, alFind_alSet_other d x _ _ hx,
            alFind_alSet_other s x _ _ hxs]

theorem deleteEdge_fields (g : GraphSt) (s d : Nat) :
    (deleteEdge g s d).1.vertices = g.vertices ∧
    (deleteEdge g s d).1.numVertices = g.numVertices ∧
    (deleteEdge g s d).1.isDirected = g.isDirected ∧
    (deleteEdge g s d).1.isWeighted = g.isWeighted := by
  rw [deleteEdge]
  by_cases h : s ∈ g.vertices ∧ d ∈ g.vertices
  · rw [if_pos ⟨(contains_iff_mem _ _).2 h.1, (contains_iff_mem _ _).2 h.2⟩]
    cases hdir : g.isDirected <;> simp [hdir]
  · rw [if_neg (fun hc => h ⟨(contains_iff_mem _ _).1 hc.1, (contains_iff_mem _ _).1 hc.2⟩)]
    exact ⟨rfl, rfl, rfl, rfl⟩

theorem adjOf_deleteEdge_undir (g : GraphSt) (s d : Nat)
    (hs : s ∈ g.vertices) (hd : d ∈ g.vertices) (hdir : g.isDirected = false)
    (x : Nat) :
    adjOf (deleteEdge g s d).1 x =
      if x = d then
        ((if d = s then (adjOf g s).filter (fun p => p.1 ≠ d) else adjOf g d).filter
          (fun p => p.1 ≠ s))
      else if x = s then (adjOf g s).filter (fun p => p.1 ≠ d)
      else adjOf g x := by
  rw [deleteEdge, if_pos ⟨(contains_iff_mem _ _).2 hs, (contains_iff_mem _ _).2 hd⟩]
  simp only [hdir, Bool.false_eq_true, if_false]
  by_cases hx : x = d
  · subst hx
    by_cases hxs : x = s
    · subst hxs
      simp [adjOf, mapIndex, alFind_alSet_self]
    · simp [hxs, adjOf, mapIndex, alFind_alSet_self, alFind_alSet_other s x _ _ hxs]
  · by_cases hxs : x = s
    · subst hxs
      simp [hx, adjOf, mapIndex, alFind_alSet_self, alFind_alSet_other d x _ _ hx]
    · simp [hx, hxs, adjOf, mapIndex, alFind_alSet_other d x _ _ hx,
            alFind_alSet_other s x _ _ hxs]

theorem deleteVertex_of_mem (g : GraphSt) (v : Nat) (hv : v ∈ g.vertices) :
    (deleteVertex g v).2 = true ∧
    (deleteVertex g v).1.vertices = g.vertices.filter (fun x => x ≠ v) ∧
    (deleteVertex g v).1.numVertices = g.numVertices - 1 ∧
    (deleteVertex g v).1.isDirected = g.isDirected ∧
    (deleteVertex g v).1.isWeighted = g.isWeighted := by
  rw [deleteVertex, if_pos ((contains_iff_mem _ _).2 hv)]
  exact ⟨rfl, rfl, rfl, rfl, rfl⟩

theorem adjOf_deleteVertex (g : GraphSt) (v : Nat) (hv : v ∈ g.vertices) (x : Nat) :
    adjOf (deleteVertex g v).1 x =
      if x = v then [] else (adjOf g x).filter (fun q => q.1 ≠ v) := by
  rw [deleteVertex, if_pos ((contains_iff_mem _ _).2 hv)]
  simp only [adjOf, alFind_map]
  by_cases hx : x = v
  · subst hx
    rw [alFind_alErase_self]
    simp
  · rw [alFind_alErase_other v x _ hx]
    cases h : alFind x g.adjList
    · simp [hx]
    · simp [hx]

theorem edgeB_iff (g : GraphSt) (u v : Nat) :
    edgeB g u v = true ↔ ∃ w, (v, w) ∈ adjOf g u := by
  simp only [edgeB, List.any_eq_true, beq_iff_eq]
  constructor
  · rintro ⟨p, hp, he⟩
    exact ⟨p.2, by cases p; simp_all⟩
  · rintro ⟨w, hw⟩
    exact ⟨(v, w), hw, rfl⟩

/-! Walk lemmas. -/

theorem walk_le_of_edges_lt (g : GraphSt)
    (hmono : ∀ u v : Nat, edgeB g u v = true → u < v) :
    ∀ u v n, Walk g u v n → u ≤ v := by
  intro u v n hw
  induction hw with
  | nil => exact le_refl _
  | cons h hw ih => exact le_of_lt (lt_of_lt_of_le (hmono _ _ h) ih)

theorem no_cycle_of_edges_lt (g : GraphSt)
    (hmono : ∀ u v : Nat, edgeB g u v = true → u < v) :
    ∀ v n, Walk g v v n → n = 0 := by
  intro v n hw
  cases hw with
  | nil => rfl
  | cons h hw =>
    have h1 := hmono _ _ h
    have h2 := walk_le_of_edges_lt g hmono _ _ _ hw
    omega

theorem edgeB_key (g : GraphSt) (u v : Nat) (h : edgeB g u v = true) :
    u ∈ g.adjList.map Prod.fst := by
  by_contra hc
  have hn : alFind u g.adjList = none :=
    alFind_eq_none _ _ (fun p hp he => hc (he ▸ List.mem_map_of_mem Prod.fst hp))
  simp [edgeB, adjOf, hn] at h

theorem girthCex_mono : ∀ u v : Nat, edgeB girthCex u v = true → u < v := by
  intro u v h
  have hk := edgeB_key girthCex u v h
  have hk3 : u = 1 ∨ u = 2 ∨ u = 3 := by
    have he : girthCex.adjList.map Prod.fst = [1, 2, 3] := by decide
    rw [he] at hk
    simpa using hk
  simp only [edgeB] at h
  rcases hk3 with rfl | rfl | rfl
  · rw [show adjOf girthCex 1 = [(2, 1), (3, 1)] by decide] at h
    simp at h
    rcases h with h | h <;> omega
  · rw [show adjOf girthCex 2 = [(3, 1)] by decide] at h
    simp at h
    omega
  · rw [show adjOf girthCex 3 = [] by decide] at h
    simp at h

/-- C3: the claim that getGirth returns -1 exactly when the graph has no
cycle, and otherwise the length of the shortest cycle, fails on the code:
on the acyclic directed graph with edges 1 to 2, 1 to 3, 2 to 3 the BFS
back-edge heuristic of getGirth treats the two edge-disjoint 1-to-3 paths as
a cycle and returns 3, although no cycle (no closed walk of positive length)
exists. -/
theorem spec_C3_girth_acyclic_bug :
    getGirth girthCex = 3 ∧ ∀ v n, Walk girthCex v v n → n = 0 :=
  ⟨by decide, no_cycle_of_edges_lt girthCex girthCex_mono⟩

/-- C7: the claim that a CompleteGraph with 4 added vertices has 6 edges and
all degrees 3 fails on the code: addVertex iterates the live vertex set while
its first addEdge call inserts the new vertex into that same set, so adding
1, 2, 3, 4 in ascending order also wires self-loops; the graph reports 9
edges, and vertex 2 has degree 5. -/
theorem spec_C7_complete_self_loops :
    getNumVertices cg4 = 4 ∧ getNumEdges cg4 = 9 ∧
    getDegree cg4 1 = Except.ok 3 ∧ getDegree cg4 2 = Except.ok 5 ∧
    getDegree cg4 3 = Except.ok 5 ∧ getDegree cg4 4 = Except.ok 5 := by
  decide

/-- C8: on the directed graph with adjacency 1 to [2, 3] and 2 to [4]
(edges inserted in that order), BFS from 1 visits [1, 2, 3, 4] and DFS from
1 visits [1, 2, 4, 3]. -/
theorem spec_C8_traversal_orders :
    BFS scenE 1 = Except.ok [1, 2, 3, 4] ∧ DFS scenE 1 = Except.ok [1, 2, 4, 3] := by
  decide

/-- C4 counterexample: deleteVertex is a public operation TrivialGraph
inherits unchanged, and applying it to the constructed vertex leaves the
graph with zero vertices, refuting the fixed vertex count of 1. -/
theorem cex_C4_delete_vertex :
    (deleteVertex (trivialGraph 0) 0).2 = true ∧
    getNumVertices (deleteVertex (trivialGraph 0) 0).1 = 0 ∧
    (deleteVertex (trivialGraph 0) 0).1.vertices = [] := by
  decide

theorem trivialGraph_eq (v : Nat) :
    trivialGraph v = ⟨1, false, false, [(v, [])], [v]⟩ := by
  simp [trivialGraph, emptyGraph, addVertex, setInsert, alSet]

theorem applyTOp_trivial (v : Nat) (op : TOp) :
    applyTOp (trivialGraph v) op = trivialGraph v := by
  cases op with
  | addE s d w => rfl
  | delE s d =>
    rw [trivialGraph_eq]
    by_cases hsd : s = v ∧ d = v
    · obtain ⟨rfl, rfl⟩ : s = v ∧ d = v := hsd
      simp [applyTOp, deleteEdge, mapIndex, alFind, alSet, trivialGraph_eq]
    · have hc : ¬ (([v] : List Nat).contains s = true ∧ ([v] : List Nat).contains d = true) := by
        intro hc
        exact hsd ⟨by simpa using (contains_iff_mem _ _).1 hc.1,
                   by simpa using (contains_iff_mem _ _).1 hc.2⟩
      simp only [applyTOp, deleteEdge]
      rw [if_neg hc]

/-- C4 (amended): TrivialGraph.addEdge always raises without touching the
state, and after any sequence of the edge operations addEdge/deleteEdge the
graph still equals its constructed state with exactly one vertex and zero
edges; the claim's stronger form over all public operations fails because
the inherited addVertex and deleteVertex can change the vertex count. -/
theorem spec_C4_trivial_invariant (g : GraphSt) (s d : Nat) (w : Int) (v : Nat)
    (ops : List TOp) :
    trivialAddEdge g s d w = (g, true) ∧
    ops.foldl applyTOp (trivialGraph v) = trivialGraph v ∧
    getNumVertices (trivialGraph v) = 1 ∧ getNumEdges (trivialGraph v) = 0 := by
  refine ⟨rfl, ?_, ?_, ?_⟩
  · induction ops with
    | nil => rfl
    | cons op t ih => rw [List.foldl_cons, applyTOp_trivial, ih]
  · rw [trivialGraph_eq]
    rfl
  · rw [trivialGraph_eq]
    simp [getNumEdges]

/-- C6 counterexample: on the undirected graph already holding edge (1,2),
inserting the same edge again and deleting it removes both copies, so the
adjacency lists do not return to their pre-insertion state. -/
theorem cex_C6_parallel_edge :
    ¬ (adjOf (deleteEdge (addEdge oneEdge 1 2 1) 1 2).1 1 = adjOf oneEdge 1 ∧
       adjOf (deleteEdge (addEdge oneEdge 1 2 1) 1 2).1 2 = adjOf oneEdge 2) := by
  decide

/-- C6 (amended): on an undirected graph, when u and v are present and their
adjacency lists hold no entry for each other (the edge is not already
present), deleteEdge(u,v) after addEdge(u,v,w) returns the adjacency lists of
u and v to exactly their pre-insertion state; with a pre-existing parallel
edge the deletion removes every copy. -/
theorem spec_C6_roundtrip (g : GraphSt) (u v : Nat) (w : Int)
    (hdir : g.isDirected = false) (hu : u ∈ g.vertices) (hv : v ∈ g.vertices)
    (hnu : ∀ p ∈ adjOf g u, p.1 ≠ v) (hnv : ∀ p ∈ adjOf g v, p.1 ≠ u) :
    adjOf (deleteEdge (addEdge g u v w) u v).1 u = adjOf g u ∧
    adjOf (deleteEdge (addEdge g u v w) u v).1 v = adjOf g v := by
  have hfields := addEdge_fields_of_mem g u v w hu hv
  have hu' : u ∈ (addEdge g u v w).vertices := by rw [hfields.1]; exact hu
  have hv' : v ∈ (addEdge g u v w).vertices := by rw [hfields.1]; exact hv
  have hdir' : (addEdge g u v w).isDirected = false := by rw [hfields.2.2.1]; exact hdir
  have hadj := adjOf_addEdge_undir g u v w hu hv hdir
  have hdel := adjOf_deleteEdge_undir (addEdge g u v w) u v hu' hv' hdir'
  have hfu : (adjOf g u).filter (fun p => p.1 ≠ v) = adjOf g u := by
    rw [List.filter_eq_self]
    intro a ha
    simpa using hnu a ha
  have hfv : (adjOf g v).filter (fun p => p.1 ≠ u) = adjOf g v := by
    rw [List.filter_eq_self]
    intro a ha
    simpa using hnv a ha
  by_cases huv : u = v
  · subst huv
    have hx : adjOf (deleteEdge (addEdge g u u w) u u).1 u = adjOf g u := by
      rw [hdel u]
      simp only [if_pos rfl]
      rw [hadj u]
      simp only [if_pos rfl]
      simp [List.filter_append]
      intro a b hab
      exact hnu (a, b) hab
    exact ⟨hx, hx⟩
  · constructor
    · rw [hdel u, if_neg huv, if_pos rfl, hadj u, if_neg huv, if_pos rfl]
      simp [List.filter_append]
      intro a b hab
      exact hnu (a, b) hab
    · rw [hdel v, if_pos rfl, if_neg (fun hc => huv hc.symm), hadj v, if_pos rfl,
        if_neg (fun hc => huv hc.symm)]
      simp [List.filter_append]
      intro a b hab
      exact hnv (a, b) hab

/-- C6 witness: the amended round-trip property at the concrete undirected
graph with edge (1,2) and isolated vertex 3, inserting and deleting the
fresh edge (1,3). -/
theorem spec_C6_roundtrip_witness :
    adjOf (deleteEdge (addEdge edgePlusIso 1 3 5) 1 3).1 1 = adjOf edgePlusIso 1 ∧
    adjOf (deleteEdge (addEdge edgePlusIso 1 3 5) 1 3).1 3 = adjOf edgePlusIso 3 :=
  spec_C6_roundtrip edgePlusIso 1 3 5 (by decide) (by decide) (by decide)
    (by decide) (by decide)

/-! Unconditional field lemmas and the key-closure invariant. -/

theorem vertices_addEdge (g : GraphSt) (s d : Nat) (w : Int) :
    (addEdge g s d w).vertices = (addVertex (addVertex g s) d).vertices := by
  simp only [addEdge]
  split <;> rfl

theorem numVertices_addEdge (g : GraphSt) (s d : Nat) (w : Int) :
    (addEdge g s d w).numVertices = (addVertex (addVertex g s) d).numVertices := by
  simp only [addEdge]
  split <;> rfl

theorem isDirected_addEdge (g : GraphSt) (s d : Nat) (w : Int) :
    (addEdge g s d w).isDirected = g.isDirected := by
  simp only [addEdge]
  split <;> exact ((addVertex_fields (addVertex g s) d).1).trans (addVertex_fields g s).1

theorem isWeighted_addEdge (g : GraphSt) (s d : Nat) (w : Int) :
    (addEdge g s d w).isWeighted = g.isWeighted := by
  simp only [addEdge]
  split <;> exact ((addVertex_fields (addVertex g s) d).2).trans (addVertex_fields g s).2

theorem mem_vertices_addEdge (g : GraphSt) (s d x : Nat) (w : Int) :
    x ∈ (addEdge g s d w).vertices ↔ x = d ∨ x = s ∨ x ∈ g.vertices := by
  rw [vertices_addEdge, mem_vertices_addVertex, mem_vertices_addVertex]

/-- Key closure: every adjacency-map key is a member of the vertex set. -/
def KV (g : GraphSt) : Prop := ∀ p ∈ g.adjList, p.1 ∈ g.vertices

theorem KV_addVertex (g : GraphSt) (v : Nat) (hkv : KV g) : KV (addVertex g v) := by
  by_cases h : v ∈ g.vertices
  · rw [addVertex_of_mem g v h]
    exact hkv
  · rw [addVertex_of_not_mem g v h]
    intro p hp
    rcases mem_alSet p v [] g.adjList hp with h' | h'
    · rw [h']
      exact (mem_setInsert v v g.vertices).2 (Or.inl rfl)
    · exact (mem_setInsert _ v g.vertices).2 (Or.inr (hkv p h'))

theorem adjOf_addVertex_KV (g : GraphSt) (v y : Nat) (hkv : KV g) :
    adjOf (addVertex g v) y = adjOf g y := by
  by_cases h : v ∈ g.vertices
  · rw [addVertex_of_mem g v h]
  · rw [addVertex_of_not_mem g v h]
    by_cases hy : y = v
    · subst hy
      have hn : alFind y g.adjList = none :=
        alFind_eq_none _ _ (fun p hp he => h (he ▸ hkv p hp))
      simp only [adjOf, alFind_alSet_self, hn]
      rfl
    · simp only [adjOf]
      rw [alFind_alSet_other v y _ _ hy]

theorem KV_addEdge (g : GraphSt) (s d : Nat) (w : Int) (hkv : KV g) :
    KV (addEdge g s d w) := by
  intro p hp
  rw [mem_vertices_addEdge]
  have hbase : ∀ q ∈ (addVertex (addVertex g s) d).adjList,
      q.1 = d ∨ q.1 = s ∨ q.1 ∈ g.vertices := by
    intro q hq
    have := KV_addVertex (addVertex g s) d (KV_addVertex g s hkv) q hq
    rw [mem_vertices_addVertex, mem_vertices_addVertex] at this
    exact this
  revert hp
  simp only [addEdge]
  split
  · intro hp
    rcases mem_alSet p s _ _ hp with h' | h'
    · rw [h']
      exact Or.inr (Or.inl rfl)
    · exact hbase p h'
  · intro hp
    rcases mem_alSet p d _ _ hp with h' | h'
    · rw [h']
      exact Or.inl rfl
    · rcases mem_alSet p s _ _ h' with h'' | h''
      · rw [h'']
        exact Or.inr (Or.inl rfl)
      · exact hbase p h''

theorem adjOf_addEdge_undir_KV (g : GraphSt) (s d : Nat) (w : Int)
    (hkv : KV g) (hdir : g.isDirected = false) (x : Nat) :
    adjOf (addEdge g s d w) x =
      if x = d then
        (if d = s then adjOf g s ++ [(d, w), (s, w)] else adjOf g d ++ [(s, w)])
      else if x = s then adjOf g s ++ [(d, w)]
      else adjOf g x := by
  have hdir1 : (addVertex (addVertex g s) d).isDirected = false := by
    rw [(addVertex_fields (addVertex g s) d).1, (addVertex_fields g s).1]
    exact hdir
  have hadj1 : ∀ y, adjOf (addVertex (addVertex g s) d) y = adjOf g y := fun y =>
    (adjOf_addVertex_KV (addVertex g s) d y (KV_addVertex g s hkv)).trans
      (adjOf_addVertex_KV g s y hkv)
  simp only [addEdge]
  rw [if_neg (by simp [hdir1])]
  by_cases hx : x = d
  · subst hx
    rw [if_pos rfl]
    simp only [adjOf, alFind_alSet_self, Option.getD_some, mapIndex]
    by_cases hxs : x = s
    · subst hxs
      rw [if_pos rfl, alFind_alSet_self]
      simp only [Option.getD_some]
      have := hadj1 x
      simp only [adjOf] at this
      rw [this]
      simp
    · rw [if_neg hxs, alFind_alSet_other s x _ _ hxs]
      have h1 := hadj1 x
      simp only [adjOf] at h1
      rw [h1]
  · rw [if_neg hx]
    simp only [adjOf, mapIndex]
    rw [alFind_alSet_other d x _ _ hx]
    by_cases hxs : x = s
    · subst hxs
      rw [if_pos rfl, alFind_alSet_self]
      simp only [Option.getD_some]
      have h2 := hadj1 x
      simp only [adjOf] at h2
      rw [h2]
    · rw [if_neg hxs, alFind_alSet_other s x _ _ hxs]
      have h1 := hadj1 x
      simp only [adjOf] at h1
      rw [h1]

theorem KV_deleteEdge (g : GraphSt) (s d : Nat) (hkv : KV g) :
    KV ((deleteEdge g s d).1) := by
  simp only [deleteEdge]
  by_cases h : s ∈ g.vertices ∧ d ∈ g.vertices
  · rw [if_pos ⟨(contains_iff_mem _ _).2 h.1, (contains_iff_mem _ _).2 h.2⟩]
    split
    · intro p hp
      rcases mem_alSet p s _ _ hp with h' | h'
      · rw [h']
        exact h.1
      · exact hkv p h'
    · intro p hp
      rcases mem_alSet p d _ _ hp with h' | h'
      · rw [h']
        exact h.2
      · rcases mem_alSet p s _ _ h' with h'' | h''
        · rw [h'']
          exact h.1
        · exact hkv p h''
  · rw [if_neg (fun hc => h ⟨(contains_iff_mem _ _).1 hc.1, (contains_iff_mem _ _).1 hc.2⟩)]
    exact hkv

theorem KV_deleteVertex (g : GraphSt) (v : Nat) (hkv : KV g) :
    KV ((deleteVertex g v).1) := by
  rw [deleteVertex]
  by_cases h : v ∈ g.vertices
  · rw [if_pos ((contains_iff_mem _ _).2 h)]
    intro p hp
    simp only [List.mem_map] at hp
    obtain ⟨q, hq, rfl⟩ := hp
    simp only [alErase, List.mem_filter, decide_eq_true_eq] at hq
    simp only [List.mem_filter, decide_eq_true_eq]
    exact ⟨hkv q hq.1, hq.2⟩
  · rw [if_neg (fun hc => h ((contains_iff_mem _ _).1 hc))]
    exact hkv

/-! Symmetry preservation for the base mutations of an undirected graph. -/

theorem sym_addVertex (g : GraphSt) (v : Nat) (hkv : KV g) (hs : Sym g) :
    Sym (addVertex g v) := by
  intro x n w hm
  rw [adjOf_addVertex_KV g v x hkv] at hm
  rw [adjOf_addVertex_KV g v n hkv]
  exact hs x n w hm

theorem sym_addEdge (g : GraphSt) (s d : Nat) (w : Int)
    (hkv : KV g) (hdir : g.isDirected = false) (hs : Sym g) :
    Sym (addEdge g s d w) := by
  have hf := adjOf_addEdge_undir_KV g s d w hkv hdir
  have hsup : ∀ y, ∀ q ∈ adjOf g y, q ∈ adjOf (addEdge g s d w) y := by
    intro y q hq
    rw [hf y]
    by_cases hyd : y = d
    · subst hyd
      rw [if_pos rfl]
      by_cases hds : y = s
      · subst hds
        rw [if_pos rfl]
        exact List.mem_append_left _ hq
      · rw [if_neg hds]
        exact List.mem_append_left _ hq
    · rw [if_neg hyd]
      by_cases hys : y = s
      · subst hys
        rw [if_pos rfl]
        exact List.mem_append_left _ hq
      · rw [if_neg hys]
        exact hq
  intro x n w' hm
  rw [hf x] at hm
  by_cases hxd : x = d
  · rw [if_pos hxd] at hm
    by_cases hds : d = s
    · rw [if_pos hds] at hm
      rcases List.mem_append.1 hm with hold | hnew
      · exact hsup n _ (hs x n w' (by rw [hxd, hds]; exact hold))
      · simp only [List.mem_cons, List.mem_singleton] at hnew
        rcases hnew with h' | h' | h'
        · rw [Prod.mk.injEq] at h'
          obtain ⟨h1, h2⟩ := h'
          subst h2
          rw [h1, hf d, if_pos rfl, if_pos hds, hxd]
          simp
        · rw [Prod.mk.injEq] at h'
          obtain ⟨h1, h2⟩ := h'
          subst h2
          rw [h1, hf s, if_pos hds.symm, if_pos hds, hxd]
          simp
        · exact absurd h' (by simp)
    · rw [if_neg hds] at hm
      rcases List.mem_append.1 hm with hold | hnew
      · exact hsup n _ (hs x n w' (by rw [hxd]; exact hold))
      · simp only [List.mem_singleton] at hnew
        rw [Prod.mk.injEq] at hnew
        obtain ⟨h1, h2⟩ := hnew
        subst h2
        rw [h1, hf s]
        by_cases hsd : s = d
        · exact absurd hsd.symm hds
        · rw [if_neg hsd, if_pos rfl, hxd]
          simp
  · rw [if_neg hxd] at hm
    by_cases hxs : x = s
    · rw [if_pos hxs] at hm
      rcases List.mem_append.1 hm with hold | hnew
      · exact hsup n _ (hs x n w' (by rw [hxs]; exact hold))
      · simp only [List.mem_singleton] at hnew
        rw [Prod.mk.injEq] at hnew
        obtain ⟨h1, h2⟩ := hnew
        subst h2
        rw [h1, hf d, if_pos rfl]
        by_cases hds : d = s
        · rw [if_pos hds, hxs]
          simp
        · rw [if_neg hds, hxs]
          simp
    · rw [if_neg hxs] at hm
      exact hsup n _ (hs x n w' hm)

theorem sym_deleteVertex (g : GraphSt) (v : Nat) (hs : Sym g) :
    Sym ((deleteVertex g v).1) := by
  by_cases h : v ∈ g.vertices
  · have hdel := adjOf_deleteVertex g v h
    intro x n w' hm
    rw [hdel x] at hm
    rw [hdel n]
    by_cases hx : x = v
    · rw [if_pos hx] at hm
      exact absurd hm (List.not_mem_nil _)
    · rw [if_neg hx] at hm
      simp only [List.mem_filter, decide_eq_true_eq] at hm
      have hn : ¬ n = v := hm.2
      rw [if_neg hn]
      simp only [List.mem_filter, decide_eq_true_eq]
      exact ⟨hs x n w' hm.1, hx⟩
  · have : (deleteVertex g v) = (g, false) := by
      rw [deleteVertex, if_neg (fun hc => h ((contains_iff_mem _ _).1 hc))]
    rw [this]
    exact hs

theorem sym_deleteEdge (g : GraphSt) (s d : Nat)
    (hdir : g.isDirected = false) (hs : Sym g) :
    Sym ((deleteEdge g s d).1) := by
  by_cases h : s ∈ g.vertices ∧ d ∈ g.vertices
  · have hdel := adjOf_deleteEdge_undir g s d h.1 h.2 hdir
    intro x n w' hm
    rw [hdel x] at hm
    rw [hdel n]
    by_cases hxd : x = d
    · rw [if_pos hxd] at hm
      simp only [List.mem_filter, decide_eq_true_eq] at hm
      have hns : ¬ n = s := hm.2
      by_cases hds : d = s
      · rw [if_pos hds] at hm
        simp only [List.mem_filter, decide_eq_true_eq] at hm
        have hbase : (x, w') ∈ adjOf g n := hs x n w' (by rw [hxd, hds]; exact hm.1.1)
        have hnd : ¬ n = d := by rw [hds]; exact hns
        rw [if_neg hnd, if_neg hns]
        exact hbase
      · rw [if_neg hds] at hm
        have hbase : (x, w') ∈ adjOf g n := hs x n w' (by rw [hxd]; exact hm.1)
        by_cases hnd : n = d
        · rw [if_pos hnd, if_neg hds]
          simp only [List.mem_filter, decide_eq_true_eq]
          refine ⟨by rw [← hnd]; exact hbase, ?_⟩
          rw [hxd]
          intro hc
          exact hds (hc ▸ rfl)
        · rw [if_neg hnd, if_neg hns]
          exact hbase
    · rw [if_neg hxd] at hm
      by_cases hxs : x = s
      · rw [if_pos hxs] at hm
        simp only [List.mem_filter, decide_eq_true_eq] at hm
        have hnd : ¬ n = d := hm.2
        have hbase : (x, w') ∈ adjOf g n := hs x n w' (by rw [hxs]; exact hm.1)
        rw [if_neg hnd]
        by_cases hns : n = s
        · rw [if_pos hns]
          simp only [List.mem_filter, decide_eq_true_eq]
          exact ⟨by rw [← hns]; exact hbase, hxd⟩
        · rw [if_neg hns]
          exact hbase
      · rw [if_neg hxs] at hm
        have hbase : (x, w') ∈ adjOf g n := hs x n w' hm
        by_cases hnd : n = d
        · rw [if_pos hnd]
          by_cases hds : d = s
          · rw [if_pos hds]
            simp only [List.mem_filter, decide_eq_true_eq]
            exact ⟨⟨by rw [← hds, ← hnd]; exact hbase, fun hc => hxd (by rw [hc, hds])⟩, hxs⟩
          · rw [if_neg hds]
            simp only [List.mem_filter, decide_eq_true_eq]
            exact ⟨by rw [← hnd]; exact hbase, hxs⟩
        · rw [if_neg hnd]
          by_cases hns : n = s
          · rw [if_pos hns]
            simp only [List.mem_filter, decide_eq_true_eq]
            exact ⟨by rw [← hns]; exact hbase, hxd⟩
          · rw [if_neg hns]
            exact hbase
  · have : (deleteEdge g s d) = (g, false) := by
      rw [deleteEdge,
        if_neg (fun hc => h ⟨(contains_iff_mem _ _).1 hc.1, (contains_iff_mem _ _).1 hc.2⟩)]
    rw [this]
    exact hs

theorem applyGOp_flags_KV (g : GraphSt) (op : GOp) (hkv : KV g) :
    (applyGOp g op).isDirected = g.isDirected ∧ KV (applyGOp g op) := by
  cases op with
  | addV v => exact ⟨(addVertex_fields g v).1, KV_addVertex g v hkv⟩
  | addE s d w => exact ⟨isDirected_addEdge g s d w, KV_addEdge g s d w hkv⟩
  | delV v =>
    refine ⟨?_, KV_deleteVertex g v hkv⟩
    by_cases h : v ∈ g.vertices
    · exact (deleteVertex_of_mem g v h).2.2.2.1
    · have he : deleteVertex g v = (g, false) := by
        rw [deleteVertex, if_neg (fun hc => h ((contains_iff_mem _ _).1 hc))]
      show ((deleteVertex g v).1).isDirected = g.isDirected
      rw [he]
  | delE s d => exact ⟨(deleteEdge_fields g s d).2.2.1, KV_deleteEdge g s d hkv⟩

/-- C2: starting from any undirected graph state satisfying the data model's
key-closure invariant and the symmetry invariant, every finite sequence of
addVertex/addEdge/deleteVertex/deleteEdge calls preserves symmetry: for every
vertex v and every entry (n, w) of adjacency[v], an entry (v, w) exists in
adjacency[n]. -/
theorem spec_C2_undirected_symmetry (g : GraphSt) (ops : List GOp)
    (hdir : g.isDirected = false) (hkv : KV g) (hsym : Sym g) :
    Sym (ops.foldl applyGOp g) := by
  induction ops generalizing g with
  | nil => exact hsym
  | cons op t ih =>
    rw [List.foldl_cons]
    have hfk := applyGOp_flags_KV g op hkv
    apply ih
    · rw [hfk.1]
      exact hdir
    · exact hfk.2
    · cases op with
      | addV v => exact sym_addVertex g v hkv hsym
      | addE s d w => exact sym_addEdge g s d w hkv hdir hsym
      | delV v => exact sym_deleteVertex g v hsym
      | delE s d => exact sym_deleteEdge g s d hdir hsym

/-- C2 witness: the symmetry invariant after a concrete mutation sequence on
the empty undirected graph. -/
theorem spec_C2_undirected_symmetry_witness :
    Sym ([GOp.addE 1 2 5, GOp.addE 2 3 7, GOp.addV 9, GOp.delE 1 2,
          GOp.delV 3].foldl applyGOp (emptyGraph false false)) :=
  spec_C2_undirected_symmetry (emptyGraph false false) _ rfl
    (fun p hp => absurd hp (List.not_mem_nil p))
    (fun v n w hm => by simp [adjOf, emptyGraph, alFind] at hm)

/-! Preservation of the structural invariant by every public mutation. -/

theorem chain'_nodup (l : List Nat) (h : List.Chain' (· < ·) l) : l.Nodup :=
  ((List.chain'_iff_pairwise).1 h).imp Nat.ne_of_lt

theorem length_filter_ne (l : List Nat) (v : Nat) (hnd : l.Nodup) (hv : v ∈ l) :
    (l.filter (fun x => x ≠ v)).length + 1 = l.length := by
  induction l with
  | nil => cases hv
  | cons a t ih =>
    rcases List.mem_cons.1 hv with h1 | hv'
    · have hd : t.filter (fun x => x ≠ v) = t :=
        List.filter_eq_self.2 (fun b hb => by
          simp only [decide_eq_true_eq]
          intro hc
          exact (List.nodup_cons.1 hnd).1 (by rw [← h1, ← hc]; exact hb))
      rw [List.filter_cons, if_neg (by simp [← h1]), hd]
      simp
    · have hne : ¬ (a = v) := fun hc => (List.nodup_cons.1 hnd).1 (hc ▸ hv')
      rw [List.filter_cons, if_pos (by simp [hne])]
      simp only [List.length_cons]
      rw [ih (List.nodup_cons.1 hnd).2 hv']

theorem inv_addVertex (g : GraphSt) (v : Nat) (h : Inv g) : Inv (addVertex g v) := by
  obtain ⟨hc, hn, hk⟩ := h
  by_cases hv : v ∈ g.vertices
  · rw [addVertex_of_mem g v hv]
    exact ⟨hc, hn, hk⟩
  · rw [addVertex_of_not_mem g v hv]
    refine ⟨chain'_setInsert v _ hc, ?_, ?_⟩
    · show g.numVertices + 1 = ((setInsert v g.vertices).length : Int)
      rw [length_setInsert v _ hv]
      push_cast
      rw [show g.numVertices = (g.vertices.length : Int) from hn]
    · intro p hp
      rcases mem_alSet p v [] g.adjList hp with h' | h'
      · rw [h']
        exact (mem_setInsert v v g.vertices).2 (Or.inl rfl)
      · exact (mem_setInsert _ v g.vertices).2 (Or.inr (hk p h'))

theorem inv_addEdge (g : GraphSt) (s d : Nat) (w : Int) (h : Inv g) :
    Inv (addEdge g s d w) := by
  have h2 := inv_addVertex (addVertex g s) d (inv_addVertex g s h)
  refine ⟨?_, ?_, KV_addEdge g s d w h.2.2⟩
  · rw [vertices_addEdge]
    exact h2.1
  · show (addEdge g s d w).numVertices = _
    rw [numVertices_addEdge, vertices_addEdge]
    exact h2.2.1

theorem inv_deleteVertex (g : GraphSt) (v : Nat) (h : Inv g) :
    Inv ((deleteVertex g v).1) := by
  obtain ⟨hc, hn, hk⟩ := h
  by_cases hv : v ∈ g.vertices
  · have hf := deleteVertex_of_mem g v hv
    refine ⟨?_, ?_, KV_deleteVertex g v hk⟩
    · rw [hf.2.1]
      exact List.Chain'.sublist hc (List.filter_sublist _)
    · show (deleteVertex g v).1.numVertices = _
      rw [hf.2.2.1, hf.2.1]
      have := length_filter_ne g.vertices v (chain'_nodup _ hc) hv
      have hcast : ((g.vertices.filter (fun x => x ≠ v)).length : Int) + 1 =
          (g.vertices.length : Int) := by
        exact_mod_cast congrArg (Nat.cast : Nat → Int) this
      have hn' : g.numVertices = (g.vertices.length : Int) := hn
      omega
  · have he : deleteVertex g v = (g, false) := by
      rw [deleteVertex, if_neg (fun hc2 => hv ((contains_iff_mem _ _).1 hc2))]
    rw [he]
    exact ⟨hc, hn, hk⟩

theorem inv_deleteEdge (g : GraphSt) (s d : Nat) (h : Inv g) :
    Inv ((deleteEdge g s d).1) := by
  have hf := deleteEdge_fields g s d
  refine ⟨?_, ?_, KV_deleteEdge g s d h.2.2⟩
  · rw [hf.1]
    exact h.1
  · show (deleteEdge g s d).1.numVertices = _
    rw [hf.2.1, hf.1]
    exact h.2.1

theorem inv_foldl {β : Type} (f : GraphSt → β → GraphSt)
    (hf : ∀ g b, Inv g → Inv (f g b)) :
    ∀ (l : List β) (g : GraphSt), Inv g → Inv (l.foldl f g) := by
  intro l
  induction l with
  | nil => exact fun g h => h
  | cons b t ih =>
    intro g h
    rw [List.foldl_cons]
    exact ih _ (hf g b h)

theorem inv_ite (c : Prop) [Decidable c] (a b : GraphSt) (ha : Inv a) (hb : Inv b) :
    Inv (if c then a else b) := by
  split
  · exact ha
  · exact hb

theorem inv_completeAddVertex (g : GraphSt) (v : Nat) (h : Inv g) :
    Inv (completeAddVertex g v) := by
  rw [completeAddVertex]
  split
  · exact h
  · exact inv_addVertex _ v
      (inv_foldl _ (fun g2 u h2 => inv_addEdge g2 u v 1 h2) _ g h)

theorem inv_dagAddEdge (g : GraphSt) (s d : Nat) (w : Int) (h : Inv g) :
    Inv ((dagAddEdge g s d w).1) := by
  have h1 := inv_addEdge g s d w h
  simp only [dagAddEdge]
  split
  · refine ⟨h1.1, h1.2.1, ?_⟩
    intro p hp
    rcases mem_alSet p s _ _ hp with h' | h'
    · rw [h']
      exact (mem_vertices_addEdge g s d s w).2 (Or.inr (Or.inl rfl))
    · exact h1.2.2 p h'
  · exact h1

theorem inv_bipAddEdge (g : GraphSt) (s d : Nat) (w : Int) (h : Inv g) :
    Inv ((bipAddEdge g s d w).1) := by
  have h1 := inv_addEdge g s d w h
  simp only [bipAddEdge]
  split
  · exact h1
  · have h2 : Inv { addEdge g s d w with adjList := (alSet s
        ((mapIndex [] s (addEdge g s d w).adjList).filter (fun p => p.1 ≠ d))
        (addEdge g s d w).adjList) } := by
      refine ⟨h1.1, h1.2.1, ?_⟩
      intro p hp
      rcases mem_alSet p s _ _ hp with h' | h'
      · rw [h']
        exact (mem_vertices_addEdge g s d s w).2 (Or.inr (Or.inl rfl))
      · exact h1.2.2 p h'
    refine ⟨h2.1, h2.2.1, ?_⟩
    intro p hp
    rcases mem_alSet p d _ _ hp with h' | h'
    · rw [h']
      exact (mem_vertices_addEdge g s d d w).2 (Or.inl rfl)
    · exact h2.2.2 p h'

theorem inv_join_result (g other : GraphSt) (h : Inv g) :
    Inv (match join g other with
         | Except.ok r => r
         | Except.error _ => g) := by
  rw [join]
  by_cases h1 : g.isDirected ≠ other.isDirected
  · rw [if_pos h1]
    exact h
  · rw [if_neg h1]
    by_cases h2 : g.isWeighted ≠ other.isWeighted
    · rw [if_pos h2]
      exact h
    · rw [if_neg h2]
      show Inv (other.adjList.foldl _ (other.vertices.foldl addVertex g))
      refine inv_foldl _ ?_ _ _ (inv_foldl addVertex (fun g2 u h3 => inv_addVertex g2 u h3) _ g h)
      intro g2 p h3
      refine inv_foldl _ ?_ _ _ h3
      intro g4 nb h4
      exact inv_ite _ _ _ h4 (inv_ite _ _ _ (inv_addEdge _ _ _ _ h4) h4)

/-- C10: the structural invariant of every graph state, namely that the
cached counter returned by getNumVertices equals the number of elements of
the (strictly sorted) vertex set and that every adjacency-map key is a
member of the vertex set, is preserved by every public mutating operation of
the base Graph class and of all variants, including the calls that raise
(variant addEdge rejections and mismatched join). -/
theorem spec_C10_invariants (g : GraphSt) (op : AOp) (h : Inv g) :
    Inv (applyAOp g op) := by
  cases op with
  | addV v => exact inv_addVertex g v h
  | addE s d w => exact inv_addEdge g s d w h
  | delV v => exact inv_deleteVertex g v h
  | delE s d => exact inv_deleteEdge g s d h
  | nullAddE s d w => exact h
  | trivAddE s d w => exact h
  | compAddV v => exact inv_completeAddVertex g v h
  | dagAddE s d w => exact inv_dagAddEdge g s d w h
  | bipAddE s d w => exact inv_bipAddEdge g s d w h
  | joinOp other => exact inv_join_result g other h

/-- C10 witness: the invariant after concrete operations on concrete
states. -/
theorem spec_C10_invariants_witness :
    Inv (applyAOp (emptyGraph false false) (AOp.addE 3 1 4)) ∧
    Inv (applyAOp bipPath (AOp.bipAddE 0 2 1)) :=
  ⟨spec_C10_invariants (emptyGraph false false) (AOp.addE 3 1 4)
     ⟨List.chain'_nil, by decide, by decide⟩,
   spec_C10_invariants bipPath (AOp.bipAddE 0 2 1)
     ⟨by rw [show bipPath.vertices = [0, 1, 2] from by decide]; simp [List.chain'_cons],
      by decide, by decide⟩⟩

/-! Extensionality of key-sorted association lists, used to show the
variant rollbacks restore the original adjacency map. -/

theorem keys_alSet_sorted {α : Type} (k : Nat) (v : α) (l : List (Nat × α))
    (h : List.Chain' (· < ·) (l.map Prod.fst)) :
    List.Chain' (· < ·) ((alSet k v l).map Prod.fst) := by
  induction l with
  | nil => simp [alSet]
  | cons p t ih =>
    simp only [List.map_cons] at h
    rw [List.chain'_cons'] at h
    simp only [alSet]
    by_cases h1 : k < p.1
    · rw [if_pos h1]
      simp only [List.map_cons]
      rw [List.chain'_cons']
      refine ⟨?_, List.chain'_cons'.2 h⟩
      intro y hy
      simp only [List.head?_cons, Option.mem_def, Option.some.injEq] at hy
      omega
    · by_cases h2 : k = p.1
      · rw [if_neg h1, if_pos h2]
        simp only [List.map_cons]
        rw [List.chain'_cons']
        refine ⟨?_, h.2⟩
        intro y hy
        have := h.1 y hy
        omega
      · rw [if_neg h1, if_neg h2]
        simp only [List.map_cons]
        rw [List.chain'_cons']
        refine ⟨?_, ih h.2⟩
        intro y hy
        have hh : ∀ z ∈ (t.map Prod.fst).head?, p.1 < z := h.1
        have hk : p.1 < k := by omega
        rcases t with _ | ⟨q, u⟩
        · simp [alSet] at hy
          omega
        · simp only [alSet] at hy
          by_cases h3 : k < q.1
          · rw [if_pos h3] at hy
            simp at hy
            omega
          · by_cases h4 : k = q.1
            · rw [if_neg h3, if_pos h4] at hy
              simp at hy
              have := hh q.1 (by simp)
              omega
            · rw [if_neg h3, if_neg h4] at hy
              simp at hy
              have := hh q.1 (by simp)
              omega

theorem alFind_isSome_of_key {α : Type} (k : Nat) (l : List (Nat × α))
    (h : k ∈ l.map Prod.fst) : ∃ v, alFind k l = some v := by
  induction l with
  | nil => simp at h
  | cons p t ih =>
    simp only [List.map_cons, List.mem_cons] at h
    by_cases h1 : p.1 = k
    · exact ⟨p.2, by simp [alFind, h1]⟩
    · rcases h with h | h
      · exact absurd h.symm h1
      · obtain ⟨v, hv⟩ := ih h
        exact ⟨v, by simp [alFind, h1, hv]⟩

theorem key_lt_of_mem_keys {α : Type} (p : Nat × α) (t : List (Nat × α)) (k : Nat)
    (h : List.Chain' (· < ·) ((p :: t).map Prod.fst)) (hk : k ∈ t.map Prod.fst) :
    p.1 < k := by
  rw [List.map_cons, List.chain'_iff_pairwise] at h
  exact (List.pairwise_cons.1 h).1 k hk

theorem mem_keys_of_find {α : Type} (k : Nat) (v : α) (l : List (Nat × α))
    (h : alFind k l = some v) : k ∈ l.map Prod.fst := by
  have := alFind_mem k v l h
  exact List.mem_map.2 ⟨(k, v), this, rfl⟩

theorem al_ext {α : Type} :
    ∀ (l1 l2 : List (Nat × α)),
    List.Chain' (· < ·) (l1.map Prod.fst) → List.Chain' (· < ·) (l2.map Prod.fst) →
    (∀ k, alFind k l1 = alFind k l2) → l1 = l2 := by
  intro l1
  induction l1 with
  | nil =>
    intro l2 _ _ hf
    cases l2 with
    | nil => rfl
    | cons q u =>
      have := hf q.1
      simp [alFind] at this
  | cons p t ih =>
    intro l2 h1 h2 hf
    cases l2 with
    | nil =>
      have := hf p.1
      simp [alFind] at this
    | cons q u =>
      have hpq : p.1 = q.1 := by
        by_contra hne
        have hp := hf p.1
        rw [show alFind p.1 (p :: t) = some p.2 from by simp [alFind]] at hp
        have hq := hf q.1
        rw [show alFind q.1 (q :: u) = some q.2 from by simp [alFind]] at hq
        have hp2 : alFind p.1 (q :: u) = some p.2 := hp.symm
        have hq2 : alFind q.1 (p :: t) = some q.2 := hq
        have hpu : p.1 ∈ u.map Prod.fst := by
          have hm := mem_keys_of_find _ _ _ hp2
          simp only [List.map_cons, List.mem_cons] at hm
          rcases hm with h | h
          · exact absurd h hne
          · exact h
        have hqt : q.1 ∈ t.map Prod.fst := by
          have hm := mem_keys_of_find _ _ _ hq2
          simp only [List.map_cons, List.mem_cons] at hm
          rcases hm with h | h
          · exact absurd h.symm hne
          · exact h
        have o1 := key_lt_of_mem_keys q u p.1 h2 hpu
        have o2 := key_lt_of_mem_keys p t q.1 h1 hqt
        omega
      have hval : p.2 = q.2 := by
        have hp := hf p.1
        rw [show alFind p.1 (p :: t) = some p.2 from by simp [alFind]] at hp
        rw [show alFind p.1 (q :: u) = some q.2 from by simp [alFind, hpq]] at hp
        exact Option.some.inj hp
      have htail : ∀ k, alFind k t = alFind k u := by
        intro k
        by_cases hk : k = p.1
        · have hnt : alFind k t = none := by
            cases hft : alFind k t with
            | none => rfl
            | some v =>
              have := key_lt_of_mem_keys p t k h1 (mem_keys_of_find _ _ _ hft)
              omega
          have hnu : alFind k u = none := by
            cases hfu : alFind k u with
            | none => rfl
            | some v =>
              have := key_lt_of_mem_keys q u k h2 (mem_keys_of_find _ _ _ hfu)
              omega
          rw [hnt, hnu]
        · have := hf k
          have hqk : ¬ q.1 = k := by rw [← hpq]; exact fun hc => hk hc.symm
          simp only [alFind, hqk, if_false] at this
          rw [if_neg (fun hc : p.1 = k => hk hc.symm)] at this
          exact this
      have hcp : p = q := Prod.ext hpq hval
      rw [hcp, ih u (by
          simp only [List.map_cons] at h1
          exact (List.chain'_cons'.1 h1).2)
        (by
          simp only [List.map_cons] at h2
          exact (List.chain'_cons'.1 h2).2) htail]

theorem addEdge_eq_dir (g : GraphSt) (s d : Nat) (w : Int)
    (hs : s ∈ g.vertices) (hd : d ∈ g.vertices) (hdir : g.isDirected = true) :
    addEdge g s d w = { g with adjList := alSet s (adjOf g s ++ [(d, w)]) g.adjList } := by
  rw [addEdge, addVertex_of_mem g s hs, addVertex_of_mem g d hd, if_pos hdir]
  rfl

theorem addEdge_eq_undir (g : GraphSt) (s d : Nat) (w : Int)
    (hs : s ∈ g.vertices) (hd : d ∈ g.vertices) (hdir : g.isDirected = false) :
    addEdge g s d w = { g with adjList :=
      (alSet d (mapIndex [] d (alSet s (adjOf g s ++ [(d, w)]) g.adjList) ++ [(s, w)])
        (alSet s (adjOf g s ++ [(d, w)]) g.adjList)) } := by
  rw [addEdge, addVertex_of_mem g s hs, addVertex_of_mem g d hd,
    if_neg (by simp [hdir])]
  rfl

theorem filter_self_of_ne (l : List (Nat × Int)) (d : Nat)
    (h : ∀ p ∈ l, p.1 ≠ d) : l.filter (fun p => p.1 ≠ d) = l :=
  List.filter_eq_self.2 (fun a ha => by simpa using h a ha)

/-- C1 counterexample: on an empty DirectedAcyclicGraph, addEdge(0, 0, 1)
raises, removes the inserted edge, but keeps the endpoint vertex 0 that the
call auto-added, so the graph is not restored to its exact pre-call state. -/
theorem cex_C1_auto_vertex :
    (dagAddEdge (emptyGraph true false) 0 0 1).2 = true ∧
    (dagAddEdge (emptyGraph true false) 0 0 1).1 ≠ emptyGraph true false ∧
    (dagAddEdge (emptyGraph true false) 0 0 1).1.vertices = [0] := by
  decide

/-- C1 (amended): when DirectedAcyclicGraph::addEdge or
BipartiteGraph::addEdge raises after its validation check, the inserted
adjacency entries are removed; provided both endpoints were already vertices
of the graph (with adjacency-map entries) and no prior src-dest adjacency
entries existed, the graph is restored to its exact pre-call state. When an
endpoint was absent, the call's auto-added vertex survives the rollback, as
the counterexample shows. -/
theorem spec_C1_validation_rollback (g gb : GraphSt) (s d sb db : Nat) (w wb : Int)
    (hdir : g.isDirected = true)
    (hsort : List.Chain' (· < ·) (g.adjList.map Prod.fst))
    (hs : s ∈ g.vertices) (hd : d ∈ g.vertices)
    (hks : s ∈ g.adjList.map Prod.fst)
    (hnsd : ∀ p ∈ adjOf g s, p.1 ≠ d)
    (hraise : (dagAddEdge g s d w).2 = true)
    (hdirb : gb.isDirected = false)
    (hsortb : List.Chain' (· < ·) (gb.adjList.map Prod.fst))
    (hsb : sb ∈ gb.vertices) (hdb : db ∈ gb.vertices)
    (hksb : sb ∈ gb.adjList.map Prod.fst) (hkdb : db ∈ gb.adjList.map Prod.fst)
    (hnb1 : ∀ p ∈ adjOf gb sb, p.1 ≠ db) (hnb2 : ∀ p ∈ adjOf gb db, p.1 ≠ sb)
    (hraiseb : (bipAddEdge gb sb db wb).2 = true) :
    (dagAddEdge g s d w).1 = g ∧ (bipAddEdge gb sb db wb).1 = gb := by
  constructor
  · -- DirectedAcyclicGraph rollback
    have heq := addEdge_eq_dir g s d w hs hd hdir
    by_cases hcy : dagHasCycle (addEdge g s d w) = true
    · simp only [dagAddEdge]
      rw [if_pos hcy, heq]
      show { g with adjList := (alSet s
          ((mapIndex [] s (alSet s (adjOf g s ++ [(d, w)]) g.adjList)).filter
            (fun p => p.1 ≠ d))
          (alSet s (adjOf g s ++ [(d, w)]) g.adjList)) } = g
      have hfind : mapIndex [] s (alSet s (adjOf g s ++ [(d, w)]) g.adjList) =
          adjOf g s ++ [(d, w)] := by
        simp [mapIndex, alFind_alSet_self]
      rw [hfind]
      have hfil : (adjOf g s ++ [(d, w)]).filter (fun p => p.1 ≠ d) = adjOf g s := by
        rw [List.filter_append, filter_self_of_ne _ _ hnsd]
        simp
      rw [hfil]
      have hE : alSet s (adjOf g s) (alSet s (adjOf g s ++ [(d, w)]) g.adjList) =
          g.adjList := by
        apply al_ext
        · exact keys_alSet_sorted _ _ _ (keys_alSet_sorted _ _ _ hsort)
        · exact hsort
        · intro k
          by_cases hk : k = s
          · obtain ⟨v, hv⟩ := alFind_isSome_of_key s g.adjList hks
            rw [hk, alFind_alSet_self, hv]
            rw [show adjOf g s = v from by rw [adjOf, hv]; rfl]
          · rw [alFind_alSet_other s k _ _ hk, alFind_alSet_other s k _ _ hk]
      rw [hE]
    · exfalso
      simp only [dagAddEdge] at hraise
      rw [if_neg hcy] at hraise
      simp at hraise
  · -- BipartiteGraph rollback
    have heq := addEdge_eq_undir gb sb db wb hsb hdb hdirb
    by_cases hbip : bipCheck (addEdge gb sb db wb) = true
    · exfalso
      simp only [bipAddEdge] at hraiseb
      rw [if_pos hbip] at hraiseb
      simp at hraiseb
    · simp only [bipAddEdge]
      rw [if_neg hbip, heq]
      obtain ⟨vs, hvs⟩ := alFind_isSome_of_key sb gb.adjList hksb
      obtain ⟨vd, hvd⟩ := alFind_isSome_of_key db gb.adjList hkdb
      have hvs' : adjOf gb sb = vs := by rw [adjOf, hvs]; rfl
      have hvd' : adjOf gb db = vd := by rw [adjOf, hvd]; rfl
      by_cases e : sb = db
      · -- self-loop on an existing vertex
        subst e
        show { gb with adjList := (alSet sb
            ((mapIndex [] sb (alSet sb
              ((mapIndex [] sb (alSet sb
                (mapIndex [] sb (alSet sb (adjOf gb sb ++ [(sb, wb)]) gb.adjList) ++ [(sb, wb)])
                (alSet sb (adjOf gb sb ++ [(sb, wb)]) gb.adjList))).filter (fun p => p.1 ≠ sb))
              (alSet sb
                (mapIndex [] sb (alSet sb (adjOf gb sb ++ [(sb, wb)]) gb.adjList) ++ [(sb, wb)])
                (alSet sb (adjOf gb sb ++ [(sb, wb)]) gb.adjList)))).filter (fun p => p.1 ≠ sb))
            (alSet sb
              ((mapIndex [] sb (alSet sb
                (mapIndex [] sb (alSet sb (adjOf gb sb ++ [(sb, wb)]) gb.adjList) ++ [(sb, wb)])
                (alSet sb (adjOf gb sb ++ [(sb, wb)]) gb.adjList))).filter (fun p => p.1 ≠ sb))
              (alSet sb
                (mapIndex [] sb (alSet sb (adjOf gb sb ++ [(sb, wb)]) gb.adjList) ++ [(sb, wb)])
                (alSet sb (adjOf gb sb ++ [(sb, wb)]) gb.adjList)))) } = gb
        have hx1 : mapIndex [] sb (alSet sb (adjOf gb sb ++ [(sb, wb)]) gb.adjList) =
            adjOf gb sb ++ [(sb, wb)] := by
          simp [mapIndex, alFind_alSet_self]
        rw [hx1]
        have hx2 : mapIndex [] sb (alSet sb ((adjOf gb sb ++ [(sb, wb)]) ++ [(sb, wb)])
            (alSet sb (adjOf gb sb ++ [(sb, wb)]) gb.adjList)) =
            (adjOf gb sb ++ [(sb, wb)]) ++ [(sb, wb)] := by
          simp [mapIndex, alFind_alSet_self]
        rw [hx2]
        have hx3 : ((adjOf gb sb ++ [(sb, wb)]) ++ [(sb, wb)]).filter (fun p => p.1 ≠ sb) =
            adjOf gb sb := by
          rw [List.filter_append, List.filter_append, filter_self_of_ne _ _ hnb1]
          simp
        rw [hx3]
        have hx4 : mapIndex [] sb (alSet sb (adjOf gb sb)
            (alSet sb ((adjOf gb sb ++ [(sb, wb)]) ++ [(sb, wb)])
              (alSet sb (adjOf gb sb ++ [(sb, wb)]) gb.adjList))) = adjOf gb sb := by
          simp [mapIndex, alFind_alSet_self]
        rw [hx4, filter_self_of_ne _ _ hnb1]
        have hE : alSet sb (adjOf gb sb) (alSet sb (adjOf gb sb)
            (alSet sb ((adjOf gb sb ++ [(sb, wb)]) ++ [(sb, wb)])
              (alSet sb (adjOf gb sb ++ [(sb, wb)]) gb.adjList))) = gb.adjList := by
          apply al_ext
          · exact keys_alSet_sorted _ _ _ (keys_alSet_sorted _ _ _
              (keys_alSet_sorted _ _ _ (keys_alSet_sorted _ _ _ hsortb)))
          · exact hsortb
          · intro k
            by_cases hk : k = sb
            · rw [hk, alFind_alSet_self, hvs, hvs']
            · rw [alFind_alSet_other sb k _ _ hk, alFind_alSet_other sb k _ _ hk,
                alFind_alSet_other sb k _ _ hk, alFind_alSet_other sb k _ _ hk]
        rw [hE]
      · -- distinct endpoints
        have e' : ¬ db = sb := fun hc => e hc.symm
        show { gb with adjList := (alSet db
            ((mapIndex [] db (alSet sb
              ((mapIndex [] sb (alSet db
                (mapIndex [] db (alSet sb (adjOf gb sb ++ [(db, wb)]) gb.adjList) ++ [(sb, wb)])
                (alSet sb (adjOf gb sb ++ [(db, wb)]) gb.adjList))).filter (fun p => p.1 ≠ db))
              (alSet db
                (mapIndex [] db (alSet sb (adjOf gb sb ++ [(db, wb)]) gb.adjList) ++ [(sb, wb)])
                (alSet sb (adjOf gb sb ++ [(db, wb)]) gb.adjList)))).filter (fun p => p.1 ≠ sb))
            (alSet sb
              ((mapIndex [] sb (alSet db
                (mapIndex [] db (alSet sb (adjOf gb sb ++ [(db, wb)]) gb.adjList) ++ [(sb, wb)])
                (alSet sb (adjOf gb sb ++ [(db, wb)]) gb.adjList))).filter (fun p => p.1 ≠ db))
              (alSet db
                (mapIndex [] db (alSet sb (adjOf gb sb ++ [(db, wb)]) gb.adjList) ++ [(sb, wb)])
                (alSet sb (adjOf gb sb ++ [(db, wb)]) gb.adjList)))) } = gb
        have hy1 : mapIndex [] db (alSet sb (adjOf gb sb ++ [(db, wb)]) gb.adjList) =
            adjOf gb db := by
          simp only [mapIndex]
          rw [alFind_alSet_other sb db _ _ e']
          rfl
        rw [hy1]
        have hy2 : mapIndex [] sb (alSet db (adjOf gb db ++ [(sb, wb)])
            (alSet sb (adjOf gb sb ++ [(db, wb)]) gb.adjList)) =
            adjOf gb sb ++ [(db, wb)] := by
          simp only [mapIndex]
          rw [alFind_alSet_other db sb _ _ e, alFind_alSet_self]
          rfl
        rw [hy2]
        have hy3 : (adjOf gb sb ++ [(db, wb)]).filter (fun p => p.1 ≠ db) = adjOf gb sb := by
          rw [List.filter_append, filter_self_of_ne _ _ hnb1]
          simp
        rw [hy3]
        have hy4 : mapIndex [] db (alSet sb (adjOf gb sb)
            (alSet db (adjOf gb db ++ [(sb, wb)])
              (alSet sb (adjOf gb sb ++ [(db, wb)]) gb.adjList))) =
            adjOf gb db ++ [(sb, wb)] := by
          simp only [mapIndex]
          rw [alFind_alSet_other sb db _ _ e', alFind_alSet_self]
          rfl
        rw [hy4]
        have hy5 : (adjOf gb db ++ [(sb, wb)]).filter (fun p => p.1 ≠ sb) = adjOf gb db := by
          rw [List.filter_append, filter_self_of_ne _ _ hnb2]
          simp
        rw [hy5]
        have hE : alSet db (adjOf gb db) (alSet sb (adjOf gb sb)
            (alSet db (adjOf gb db ++ [(sb, wb)])
              (alSet sb (adjOf gb sb ++ [(db, wb)]) gb.adjList))) = gb.adjList := by
          apply al_ext
          · exact keys_alSet_sorted _ _ _ (keys_alSet_sorted _ _ _
              (keys_alSet_sorted _ _ _ (keys_alSet_sorted _ _ _ hsortb)))
          · exact hsortb
          · intro k
            by_cases hk : k = db
            · rw [hk, alFind_alSet_self, hvd, hvd']
            · rw [alFind_alSet_other db k _ _ hk]
              by_cases hk2 : k = sb
              · rw [hk2, alFind_alSet_self, hvs, hvs']
              · rw [alFind_alSet_other sb k _ _ hk2, alFind_alSet_other db k _ _ hk,
                  alFind_alSet_other sb k _ _ hk2]
        rw [hE]

/-- C1 witness: both rollbacks at concrete inputs with both endpoints
already present and no prior edge: on the DAG with edges 0 to 1 and 1 to 2,
inserting 2 to 0 raises and restores the state; on the bipartite path
0 - 1 - 2, inserting the odd-cycle edge 0 - 2 raises and restores the
state. -/
theorem spec_C1_validation_rollback_witness :
    (dagAddEdge dagChain 2 0 1).1 = dagChain ∧ (bipAddEdge bipPath 0 2 1).1 = bipPath :=
  spec_C1_validation_rollback dagChain bipPath 2 0 0 2 1 1
    (by decide)
    (by rw [show dagChain.adjList.map Prod.fst = [0, 1, 2] from by decide]
        simp [List.chain'_cons])
    (by decide) (by decide) (by decide) (by decide)
    (by decide) (by decide)
    (by rw [show bipPath.adjList.map Prod.fst = [0, 1, 2] from by decide]
        simp [List.chain'_cons])
    (by decide) (by decide) (by decide)
    (by decide) (by decide) (by decide) (by decide)

/-! Fold lemmas used for the graph union. -/

theorem pres_foldl_mem {β : Type} (P : GraphSt → Prop) (f : GraphSt → β → GraphSt) :
    ∀ (l : List β), (∀ g b, b ∈ l → P g → P (f g b)) →
    ∀ g, P g → P (l.foldl f g) := by
  intro l
  induction l with
  | nil =>
    intro _ g h
    exact h
  | cons a t ih =>
    intro hf g h
    rw [List.foldl_cons]
    exact ih (fun g2 b hb h2 => hf g2 b (List.mem_cons_of_mem _ hb) h2) _
      (hf g a (List.mem_cons_self _ _) h)

theorem vertices_addEdge_of_mem (g : GraphSt) (s d : Nat) (w : Int)
    (hs : s ∈ g.vertices) (hd : d ∈ g.vertices) :
    (addEdge g s d w).vertices = g.vertices := by
  rw [vertices_addEdge, addVertex_of_mem g s hs, addVertex_of_mem g d hd]

theorem mem_foldl_addVertex : ∀ (l : List Nat) (g : GraphSt) (x : Nat),
    x ∈ (l.foldl addVertex g).vertices ↔ x ∈ g.vertices ∨ x ∈ l := by
  intro l
  induction l with
  | nil =>
    intro g x
    simp
  | cons a t ih =>
    intro g x
    rw [List.foldl_cons, ih, mem_vertices_addVertex]
    simp only [List.mem_cons]
    tauto

/-- C9: for every pair of graphs with matching directedness and weightedness
flags whose states satisfy the data-model closure (adjacency keys and
neighbors are vertices), operator+ succeeds (the compatibility checks of the
internal join pass) and returns a graph whose vertex set is exactly the
union of the two vertex sets; in this functional embedding the operands are
by construction left unchanged, matching the const-qualified C++ operator. -/
theorem spec_C9_union_vertices (g1 g2 : GraphSt)
    (hd : g1.isDirected = g2.isDirected) (hw : g1.isWeighted = g2.isWeighted)
    (hk1 : KV g1) (hwf1 : WfG g1) (hk2 : KV g2) (hwf2 : WfG g2) :
    ∃ r, gplus g1 g2 = Except.ok r ∧
      (∀ x, x ∈ r.vertices ↔ x ∈ g1.vertices ∨ x ∈ g2.vertices) := by
  set r1 := g1.vertices.foldl addVertex (emptyGraph g1.isDirected g1.isWeighted)
    with hr1
  have hr1mem : ∀ x, x ∈ r1.vertices ↔ x ∈ g1.vertices := by
    intro x
    rw [hr1, mem_foldl_addVertex]
    simp [emptyGraph]
  have hstate1 : r1.isDirected = g1.isDirected ∧ r1.isWeighted = g1.isWeighted := by
    rw [hr1]
    exact pres_foldl_mem
      (fun g => g.isDirected = g1.isDirected ∧ g.isWeighted = g1.isWeighted)
      addVertex _
      (fun g b _ h => ⟨((addVertex_fields g b).1).trans h.1,
        ((addVertex_fields g b).2).trans h.2⟩)
      _ ⟨rfl, rfl⟩
  set r2 := g1.adjList.foldl (fun acc p =>
    p.2.foldl (fun acc2 nb =>
      if g1.isDirected || p.1 < nb.1 then addEdge acc2 p.1 nb.1 nb.2
      else acc2) acc) r1 with hr2
  have hstate2 : r2.isDirected = g1.isDirected ∧ r2.isWeighted = g1.isWeighted ∧
      r2.vertices = r1.vertices := by
    rw [hr2]
    apply pres_foldl_mem
      (fun acc => acc.isDirected = g1.isDirected ∧ acc.isWeighted = g1.isWeighted ∧
        acc.vertices = r1.vertices)
      _ g1.adjList ?_ r1 ⟨hstate1.1, hstate1.2, rfl⟩
    intro acc p hp hacc
    apply pres_foldl_mem
      (fun acc => acc.isDirected = g1.isDirected ∧ acc.isWeighted = g1.isWeighted ∧
        acc.vertices = r1.vertices) _ p.2 ?_ acc hacc
    intro acc2 nb hnb hacc2
    by_cases hc : (g1.isDirected || decide (p.1 < nb.1)) = true
    · rw [if_pos hc]
      refine ⟨(isDirected_addEdge _ _ _ _).trans hacc2.1,
        (isWeighted_addEdge _ _ _ _).trans hacc2.2.1, ?_⟩
      rw [vertices_addEdge_of_mem _ _ _ _ ?_ ?_]
      · exact hacc2.2.2
      · rw [hacc2.2.2]
        exact (hr1mem p.1).2 (hk1 p hp)
      · rw [hacc2.2.2]
        exact (hr1mem nb.1).2 (hwf1 p hp nb hnb)
    · rw [if_neg hc]
      exact hacc2
  have hc1 : ¬ (r2.isDirected ≠ g2.isDirected) := by
    rw [hstate2.1, hd]
    simp
  have hc2 : ¬ (r2.isWeighted ≠ g2.isWeighted) := by
    rw [hstate2.2.1, hw]
    simp
  have hj : gplus g1 g2 = join r2 g2 := rfl
  refine ⟨_, by rw [hj, join, if_neg hc1, if_neg hc2], ?_⟩
  set g3 := g2.vertices.foldl addVertex r2 with hg3def
  have hg3 : ∀ x, x ∈ g3.vertices ↔ x ∈ g1.vertices ∨ x ∈ g2.vertices := by
    intro x
    rw [hg3def, mem_foldl_addVertex]
    constructor
    · rintro (hx | hx)
      · exact Or.inl ((hr1mem x).1 (hstate2.2.2 ▸ hx))
      · exact Or.inr hx
    · rintro (hx | hx)
      · exact Or.inl (by rw [hstate2.2.2]; exact (hr1mem x).2 hx)
      · exact Or.inr hx
  have hfinal : (g2.adjList.foldl (fun acc p =>
      p.2.foldl (fun acc2 nb =>
        let dup := (mapIndex [] p.1 acc2.adjList).any (fun e => e.1 = nb.1)
        if dup then acc2
        else if acc2.isDirected || p.1 < nb.1 then addEdge acc2 p.1 nb.1 nb.2
        else acc2) acc) g3).vertices = g3.vertices := by
    apply pres_foldl_mem (fun acc => acc.vertices = g3.vertices) _ g2.adjList ?_ g3 rfl
    intro acc p hp hacc
    apply pres_foldl_mem (fun acc => acc.vertices = g3.vertices) _ p.2 ?_ acc hacc
    intro acc2 nb hnb hacc2
    show ((if (mapIndex [] p.1 acc2.adjList).any (fun e => e.1 = nb.1) then acc2
      else if acc2.isDirected || p.1 < nb.1 then addEdge acc2 p.1 nb.1 nb.2
      else acc2).vertices = g3.vertices)
    by_cases hdup : ((mapIndex [] p.1 acc2.adjList).any (fun e => decide (e.1 = nb.1))) = true
    · rw [if_pos hdup]
      exact hacc2
    · rw [if_neg hdup]
      by_cases hc : (acc2.isDirected || decide (p.1 < nb.1)) = true
      · rw [if_pos hc]
        rw [vertices_addEdge_of_mem _ _ _ _ ?_ ?_]
        · exact hacc2
        · rw [hacc2]
          exact (hg3 p.1).2 (Or.inr (hk2 p hp))
        · rw [hacc2]
          exact (hg3 nb.1).2 (Or.inr (hwf2 p hp nb hnb))
      · rw [if_neg hc]
        exact hacc2
  intro x
  rw [hfinal]
  exact hg3 x

/-- C9 witness: the union of the vertex sets at concrete operands. -/
theorem spec_C9_union_vertices_witness :
    ∃ r, gplus oneEdge bipPath = Except.ok r ∧
      (∀ x, x ∈ r.vertices ↔ x ∈ oneEdge.vertices ∨ x ∈ bipPath.vertices) :=
  spec_C9_union_vertices oneEdge bipPath (by decide) (by decide)
    (show ∀ p ∈ oneEdge.adjList, p.1 ∈ oneEdge.vertices by decide)
    (show ∀ p ∈ oneEdge.adjList, ∀ nb ∈ p.2, nb.1 ∈ oneEdge.vertices by decide)
    (show ∀ p ∈ bipPath.adjList, p.1 ∈ bipPath.vertices by decide)
    (show ∀ p ∈ bipPath.adjList, ∀ nb ∈ p.2, nb.1 ∈ bipPath.vertices by decide)

/-! Walk decomposition lemmas and the frontier escape lemma for the BFS
correctness proof. -/

theorem walk_zero (g : GraphSt) (u v : Nat) (h : Walk g u v 0) : u = v := by
  cases h
  rfl

theorem walk_snoc (g : GraphSt) :
    ∀ (n : Nat) (u v : Nat), Walk g u v (n + 1) →
    ∃ y, Walk g u y n ∧ edgeB g y v = true := by
  intro n
  induction n with
  | zero =>
    intro u v h
    cases h with
    | cons he hw =>
      have := walk_zero g _ _ hw
      exact ⟨u, Walk.nil u, this ▸ he⟩
  | succ n ih =>
    intro u v h
    cases h with
    | cons he hw =>
      obtain ⟨y, hwy, hey⟩ := ih _ _ hw
      exact ⟨y, Walk.cons he hwy, hey⟩

theorem walk_append_edge (g : GraphSt) (u y v : Nat) (n : Nat)
    (hw : Walk g u y n) (he : edgeB g y v = true) : Walk g u v (n + 1) := by
  induction hw with
  | nil u => exact Walk.cons he (Walk.nil v)
  | cons he2 _ ih => exact Walk.cons he2 (ih he)

theorem mem_adjOf_edgeB (g : GraphSt) (u : Nat) (nb : Nat × Int)
    (h : nb ∈ adjOf g u) : edgeB g u nb.1 = true := by
  rw [edgeB_iff]
  exact ⟨nb.2, by rwa [Prod.mk.eta]⟩

theorem mem_adjOf_vertex (g : GraphSt) (hwf : WfG g) (u : Nat) (nb : Nat × Int)
    (h : nb ∈ adjOf g u) : nb.1 ∈ g.vertices := by
  rw [adjOf] at h
  cases hf : alFind u g.adjList with
  | none => rw [hf] at h; simp at h
  | some l =>
    rw [hf] at h
    simp only [Option.getD_some] at h
    exact hwf (u, l) (alFind_mem u l g.adjList hf) nb h

theorem escape (g : GraphSt) (src : Nat) (E vis : List Nat)
    (hsrc : src ∈ vis)
    (hclo : ∀ u ∈ vis, u ∉ E → ∀ nb ∈ adjOf g u, nb.1 ∈ vis) :
    ∀ (m : Nat) (x : Nat), Walk g src x m → x ∉ vis →
    ∃ u ∈ E, ∃ j, Walk g src u j ∧ j + 1 ≤ m := by
  intro m
  induction m using Nat.strong_induction_on with
  | _ m ih =>
    intro x hw hx
    cases m with
    | zero => exact absurd (walk_zero g _ _ hw ▸ hsrc) hx
    | succ k =>
      obtain ⟨y, hwy, hey⟩ := walk_snoc g k src x hw
      by_cases hyv : y ∈ vis
      · by_cases hyE : y ∈ E
        · exact ⟨y, hyE, k, hwy, le_refl _⟩
        · exfalso
          obtain ⟨w, hwmem⟩ := (edgeB_iff g y x).1 hey
          exact hx (hclo y hyv hyE (x, w) hwmem)
      · obtain ⟨u, hu, j, hwu, hj⟩ := ih k (Nat.lt_succ_self k) y hwy hyv
        exact ⟨u, hu, j, hwu, by omega⟩

/-! Counting lemmas for the BFS fuel bound. -/

theorem filter_length_mono {α : Type} (p p' : α → Bool)
    (himp : ∀ y, p' y = true → p y = true) :
    ∀ l : List α, (l.filter p').length ≤ (l.filter p).length := by
  intro l
  induction l with
  | nil => simp
  | cons a t ih =>
    rw [List.filter_cons, List.filter_cons]
    by_cases h' : p' a = true
    · rw [if_pos h', if_pos (himp a h')]
      simpa using ih
    · rw [if_neg h']
      by_cases h : p a = true
      · rw [if_pos h]
        exact le_trans ih (by simp)
      · rw [if_neg h]
        exact ih

theorem filter_length_lt {α : Type} (p p' : α → Bool)
    (himp : ∀ y, p' y = true → p y = true) :
    ∀ (l : List α) (x : α), x ∈ l → p x = true → p' x = false →
    (l.filter p').length < (l.filter p).length := by
  intro l
  induction l with
  | nil => intro x hx; cases hx
  | cons a t ih =>
    intro x hx hpx hpx'
    rw [List.filter_cons, List.filter_cons]
    rcases List.mem_cons.1 hx with rfl | hx'
    · rw [if_neg (by rw [hpx']; simp), if_pos hpx]
      exact Nat.lt_succ_of_le (filter_length_mono p p' himp t)
    · by_cases h' : p' a = true
      · rw [if_pos h', if_pos (himp a h')]
        simpa using ih x hx' hpx hpx'
      · rw [if_neg h']
        by_cases h : p a = true
        · rw [if_pos h]
          exact lt_trans (ih x hx' hpx hpx') (by simp)
        · rw [if_neg h]
          exact ih x hx' hpx hpx'

/-- Specification of the inner neighbor loop of getDistance's BFS: processing
the remaining neighbors of the popped vertex cur either exits early with the
exact shortest distance to dest, or re-establishes the loop invariant with
cur fully expanded and the fresh frontier appended at level dcur + 1. -/
theorem distInner_spec (g : GraphSt) (hwf : WfG g) (src dest cur : Nat) (dcur : Nat)
    (hcw : Walk g src cur dcur) (hcmin : ∀ j, Walk g src cur j → dcur ≤ j) :
    ∀ (rest : List (Nat × Int)) (q vis : List Nat) (dist : List (Nat × Int))
    (qa qb : List Nat) (pre : List (Nat × Int)),
    (∀ nb ∈ rest, nb ∈ adjOf g cur) →
    adjOf g cur = pre ++ rest →
    (∀ nb ∈ pre, nb.1 ∈ vis) →
    cur ∈ vis →
    alFind cur dist = some (dcur : Int) →
    src ∈ vis → dest ∉ vis →
    (∀ x ∈ q, x ∈ vis) →
    (∀ v ∈ vis, ∃ m : Nat, alFind v dist = some (m : Int) ∧ Walk g src v m ∧
      (∀ j, Walk g src v j → m ≤ j)) →
    (∀ u ∈ vis, u ∉ q → u ≠ cur → ∀ nb ∈ adjOf g u, nb.1 ∈ vis) →
    q = qa ++ qb →
    (∀ x ∈ qa, alFind x dist = some (dcur : Int)) →
    (∀ x ∈ qb, alFind x dist = some ((dcur + 1 : Nat) : Int)) →
    (match distInner dest cur rest q vis dist with
     | Sum.inl r => r = ((dcur + 1 : Nat) : Int) ∧ Walk g src dest (dcur + 1) ∧
         (∀ j, Walk g src dest j → dcur + 1 ≤ j)
     | Sum.inr (q2, vis2, dist2) =>
         (∀ x ∈ vis, x ∈ vis2) ∧
         src ∈ vis2 ∧ dest ∉ vis2 ∧
         (∀ x ∈ q2, x ∈ vis2) ∧
         (∀ v ∈ vis2, ∃ m : Nat, alFind v dist2 = some (m : Int) ∧ Walk g src v m ∧
           (∀ j, Walk g src v j → m ≤ j)) ∧
         (∀ u ∈ vis2, u ∉ q2 → u ≠ cur → ∀ nb ∈ adjOf g u, nb.1 ∈ vis2) ∧
         (∀ nb ∈ adjOf g cur, nb.1 ∈ vis2) ∧
         (∃ qb2, q2 = qa ++ qb2 ∧
           (∀ x ∈ qa, alFind x dist2 = some (dcur : Int)) ∧
           (∀ x ∈ qb2, alFind x dist2 = some ((dcur + 1 : Nat) : Int))) ∧
         q2.length + (g.vertices.filter (fun y => y ∉ vis2)).length ≤
           q.length + (g.vertices.filter (fun y => y ∉ vis)).length) := by
  intro rest
  induction rest with
  | nil =>
    intro q vis dist qa qb pre hrest hsplit hpre hcv hcd hsrc hdest hq hD hclo hqeq hqa hqb
    simp only [distInner]
    refine ⟨fun x hx => hx, hsrc, hdest, hq, hD,
      fun u hu huq hucur => hclo u hu huq hucur, ?_, ⟨qb, hqeq, hqa, hqb⟩, le_refl _⟩
    intro nb hnb
    rw [hsplit, List.append_nil] at hnb
    exact hpre nb hnb
  | cons nb rest' ih =>
    intro q vis dist qa qb pre hrest hsplit hpre hcv hcd hsrc hdest hq hD hclo hqeq hqa hqb
    simp only [distInner]
    by_cases hv : nb.1 ∈ vis
    · rw [if_pos hv]
      apply ih q vis dist qa qb (pre ++ [nb])
        (fun x hx => hrest x (List.mem_cons_of_mem _ hx))
        (by rw [hsplit, List.append_assoc]; rfl)
        (fun x hx => by
          rcases List.mem_append.1 hx with h | h
          · exact hpre x h
          · rw [List.mem_singleton.1 h]
            exact hv)
        hcv hcd hsrc hdest hq hD hclo hqeq hqa hqb
    · rw [if_neg hv]
      have hnbadj : nb ∈ adjOf g cur := hrest nb (List.mem_cons_self _ _)
      have hedge : edgeB g cur nb.1 = true := mem_adjOf_edgeB g cur nb hnbadj
      have hwalknb : Walk g src nb.1 (dcur + 1) :=
        walk_append_edge g src cur nb.1 dcur hcw hedge
      have hminnb : ∀ j, Walk g src nb.1 j → dcur + 1 ≤ j := by
        intro j hj
        obtain ⟨u, huE, i, hwu, hi⟩ := escape g src (cur :: q) vis hsrc
          (fun u hu hnotin => hclo u hu
            (fun hq' => hnotin (List.mem_cons_of_mem _ hq'))
            (fun hc => hnotin (hc ▸ List.mem_cons_self _ _)))
          j nb.1 hj hv
        rcases List.mem_cons.1 huE with rfl | huq
        · have := hcmin i hwu
          omega
        · have hu_vis := hq u huq
          obtain ⟨mu, hfu, hwu', hminu⟩ := hD u hu_vis
          have hmui : mu ≤ i := hminu i hwu
          rcases List.mem_append.1 (hqeq ▸ huq) with hqa' | hqb'
          · have hlev := hqa u hqa'
            rw [hfu] at hlev
            have : (mu : Int) = (dcur : Int) := Option.some.inj hlev
            have : mu = dcur := by exact_mod_cast this
            omega
          · have hlev := hqb u hqb'
            rw [hfu] at hlev
            have : (mu : Int) = ((dcur + 1 : Nat) : Int) := Option.some.inj hlev
            have : mu = dcur + 1 := by exact_mod_cast this
            omega
      have hd2 : mapIndex 0 cur dist + 1 = ((dcur + 1 : Nat) : Int) := by
        rw [mapIndex, hcd]
        push_cast
        rfl
      by_cases hde : nb.1 = dest
      · rw [if_pos hde]
        show mapIndex 0 cur dist + 1 = ((dcur + 1 : Nat) : Int) ∧
          Walk g src dest (dcur + 1) ∧ (∀ j, Walk g src dest j → dcur + 1 ≤ j)
        exact ⟨hd2, hde ▸ hwalknb, fun j hj => hminnb j (hde ▸ hj)⟩
      · rw [if_neg hde]
        have hnbvert : nb.1 ∈ g.vertices := mem_adjOf_vertex g hwf cur nb hnbadj
        have hfind_other : ∀ x, x ∈ vis →
            alFind x (alSet nb.1 (mapIndex 0 cur dist + 1) dist) = alFind x dist := by
          intro x hx
          exact alFind_alSet_other nb.1 x _ _ (fun hc => hv (hc ▸ hx))
        have hrec := ih (q ++ [nb.1]) (nb.1 :: vis)
          (alSet nb.1 (mapIndex 0 cur dist + 1) dist) qa (qb ++ [nb.1]) (pre ++ [nb])
          (fun x hx => hrest x (List.mem_cons_of_mem _ hx))
          (by rw [hsplit, List.append_assoc]; rfl)
          (fun x hx => by
            rcases List.mem_append.1 hx with h | h
            · exact List.mem_cons_of_mem _ (hpre x h)
            · rw [List.mem_singleton.1 h]
              exact List.mem_cons_self _ _)
          (List.mem_cons_of_mem _ hcv)
          (by rw [hfind_other cur hcv]; exact hcd)
          (List.mem_cons_of_mem _ hsrc)
          (by
            intro hc
            rcases List.mem_cons.1 hc with hc | hc
            · exact hde hc.symm
            · exact hdest hc)
          (fun x hx => by
            rcases List.mem_append.1 hx with h | h
            · exact List.mem_cons_of_mem _ (hq x h)
            · rw [List.mem_singleton.1 h]
              exact List.mem_cons_self _ _)
          (fun v hvv => by
            rcases List.mem_cons.1 hvv with rfl | hvv'
            · refine ⟨dcur + 1, ?_, hwalknb, hminnb⟩
              rw [alFind_alSet_self, hd2]
            · obtain ⟨m, hm1, hm2, hm3⟩ := hD v hvv'
              exact ⟨m, by rw [hfind_other v hvv']; exact hm1, hm2, hm3⟩)
          (fun u hu huq hucur => by
            rcases List.mem_cons.1 hu with rfl | hu'
            · exact absurd (List.mem_append_right q (List.mem_singleton.2 rfl)) huq
            · intro nb2 hnb2
              exact List.mem_cons_of_mem _
                (hclo u hu' (fun hq' => huq (List.mem_append_left _ hq')) hucur nb2 hnb2))
          (by rw [hqeq, List.append_assoc])
          (fun x hx => by
            have hxvis : x ∈ vis := hq x (hqeq ▸ List.mem_append_left _ hx)
            rw [hfind_other x hxvis]
            exact hqa x hx)
          (fun x hx => by
            rcases List.mem_append.1 hx with h | h
            · have hxvis : x ∈ vis := hq x (hqeq ▸ List.mem_append_right _ h)
              rw [hfind_other x hxvis]
              exact hqb x h
            · rw [List.mem_singleton.1 h, alFind_alSet_self, hd2])
        revert hrec
        cases hres : distInner dest cur rest' (q ++ [nb.1]) (nb.1 :: vis)
          (alSet nb.1 (mapIndex 0 cur dist + 1) dist) with
        | inl r =>
          intro hrec
          exact hrec
        | inr t =>
          intro hrec
          obtain ⟨hb, hsrc2, hdest2, hq2, hD2, hclo2, hf2, hlev2, hmeas2⟩ := hrec
          refine ⟨fun x hx => hb x (List.mem_cons_of_mem _ hx), hsrc2, hdest2, hq2,
            hD2, hclo2, hf2, hlev2, ?_⟩
          have hcount : (g.vertices.filter (fun y => y ∉ (nb.1 :: vis))).length <
              (g.vertices.filter (fun y => y ∉ vis)).length := by
            apply filter_length_lt _ _ ?_ g.vertices nb.1 hnbvert
            · simp [hv]
            · simp
            · intro y hy
              simp only [decide_eq_true_eq] at hy ⊢
              exact fun hc => hy (List.mem_cons_of_mem _ hc)
          have hlen : (q ++ [nb.1]).length = q.length + 1 := by simp
          omega

/-- Specification of the BFS worklist loop of getDistance in the reachable
case: with the loop invariant established, it returns the exact shortest walk
length from src to dest. -/
theorem distLoop_spec (g : GraphSt) (hwf : WfG g) (src dest : Nat) :
    ∀ (fuel : Nat) (q vis : List Nat) (dist : List (Nat × Int)),
    src ∈ vis → dest ∉ vis →
    (∀ x ∈ q, x ∈ vis) →
    (∀ v ∈ vis, ∃ m : Nat, alFind v dist = some (m : Int) ∧ Walk g src v m ∧
      (∀ j, Walk g src v j → m ≤ j)) →
    (∀ u ∈ vis, u ∉ q → ∀ nb ∈ adjOf g u, nb.1 ∈ vis) →
    (∃ dl : Nat, ∃ qa qb : List Nat, q = qa ++ qb ∧
      (∀ x ∈ qa, alFind x dist = some (dl : Int)) ∧
      (∀ x ∈ qb, alFind x dist = some ((dl + 1 : Nat) : Int))) →
    q.length + (g.vertices.filter (fun y => y ∉ vis)).length < fuel →
    (∃ nW, Walk g src dest nW) →
    ∃ m : Nat, Walk g src dest m ∧ (∀ j, Walk g src dest j → m ≤ j) ∧
      distLoop g dest fuel q vis dist = (m : Int) := by
  intro fuel
  induction fuel with
  | zero =>
    intro q vis dist _ _ _ _ _ _ hcount _
    omega
  | succ fuel ih =>
    intro q vis dist hsrc hdest hq hD hclo hlev hcount hreach
    cases q with
    | nil =>
      exfalso
      obtain ⟨nW, hW⟩ := hreach
      obtain ⟨u, hu, _⟩ := escape g src [] vis hsrc
        (fun u hu _ => hclo u hu (List.not_mem_nil u)) nW dest hW hdest
      exact absurd hu (List.not_mem_nil u)
    | cons cur q' =>
      have hcvis : cur ∈ vis := hq cur (List.mem_cons_self _ _)
      obtain ⟨dcur, hcd, hcw, hcmin⟩ := hD cur hcvis
      obtain ⟨dl, qa, qb, hqeq, hqa, hqb⟩ := hlev
      have hdecomp : ∃ qa' qb', q' = qa' ++ qb' ∧
          (∀ x ∈ qa', alFind x dist = some (dcur : Int)) ∧
          (∀ x ∈ qb', alFind x dist = some ((dcur + 1 : Nat) : Int)) := by
        cases qa with
        | nil =>
          simp only [List.nil_append] at hqeq
          have hcur_lev := hqb cur (hqeq ▸ List.mem_cons_self _ _)
          rw [hcd] at hcur_lev
          have hdl : dcur = dl + 1 := by
            have := Option.some.inj hcur_lev
            exact_mod_cast this
          refine ⟨q', [], (List.append_nil q').symm, ?_, fun x hx => absurd hx (List.not_mem_nil x)⟩
          intro x hx
          have : x ∈ qb := by rw [← hqeq]; exact List.mem_cons_of_mem _ hx
          rw [hqb x this, hdl]
        | cons a qa1 =>
          rw [List.cons_append] at hqeq
          obtain ⟨ha, hq'⟩ := List.cons.inj hqeq
          have hcur_lev := hqa a (List.mem_cons_self _ _)
          rw [← ha, hcd] at hcur_lev
          have hdl : dcur = dl := by
            have := Option.some.inj hcur_lev
            exact_mod_cast this
          refine ⟨qa1, qb, hq', ?_, ?_⟩
          · intro x hx
            rw [hqa x (List.mem_cons_of_mem _ hx), hdl]
          · intro x hx
            rw [hqb x hx, hdl]
      obtain ⟨qa', qb', hqeq', hqa', hqb'⟩ := hdecomp
      have hspec := distInner_spec g hwf src dest cur dcur hcw hcmin
        (adjOf g cur) q' vis dist qa' qb' []
        (fun nb hnb => hnb) (by simp) (fun nb hnb => absurd hnb (List.not_mem_nil nb))
        hcvis hcd hsrc hdest
        (fun x hx => hq x (List.mem_cons_of_mem _ hx)) hD
        (fun u hu huq hucur => hclo u hu (by
          intro hc
          rcases List.mem_cons.1 hc with hc | hc
          · exact hucur hc
          · exact huq hc))
        hqeq' hqa' hqb'
      simp only [distLoop]
      revert hspec
      cases hres : distInner dest cur (adjOf g cur) q' vis dist with
      | inl r =>
        intro hspec
        exact ⟨dcur + 1, hspec.2.1, hspec.2.2, hspec.1⟩
      | inr t =>
        intro hspec
        obtain ⟨q2, vis2, dist2⟩ := t
        obtain ⟨hb, hsrc2, hdest2, hq2, hD2, hclo2, hf2, ⟨qb2, hq2eq, hqa2, hqb2⟩,
          hmeas2⟩ := hspec
        apply ih q2 vis2 dist2 hsrc2 hdest2 hq2 hD2 ?_ ⟨dcur, qa', qb2, hq2eq, hqa2, hqb2⟩
          ?_ hreach
        · intro u hu huq
          by_cases hc : u = cur
          · rw [hc]
            exact hf2
          · exact hclo2 u hu huq hc
        · have hl : (cur :: q').length = q'.length + 1 := by simp
          omega

/-- Inner neighbor loop of getDistance's BFS in the unreachable case: it
never takes the early exit, and every enqueued vertex stays reachable. -/
theorem distInner_no_reach (g : GraphSt) (src dest cur : Nat)
    (hrc : ∃ n, Walk g src cur n) (hnr : ∀ n, ¬ Walk g src dest n) :
    ∀ (rest : List (Nat × Int)) (q vis : List Nat) (dist : List (Nat × Int)),
    (∀ nb ∈ rest, nb ∈ adjOf g cur) →
    (∀ x ∈ q, ∃ n, Walk g src x n) →
    (match distInner dest cur rest q vis dist with
     | Sum.inl _ => False
     | Sum.inr (q2, _, _) => ∀ x ∈ q2, ∃ n, Walk g src x n) := by
  intro rest
  induction rest with
  | nil =>
    intro q vis dist _ hq
    exact hq
  | cons nb rest' ih =>
    intro q vis dist hrest hq
    simp only [distInner]
    by_cases hv : nb.1 ∈ vis
    · rw [if_pos hv]
      exact ih q vis dist (fun x hx => hrest x (List.mem_cons_of_mem _ hx)) hq
    · rw [if_neg hv]
      have hreach_nb : ∃ n, Walk g src nb.1 n := by
        obtain ⟨n, hw⟩ := hrc
        exact ⟨n + 1, walk_append_edge g src cur nb.1 n hw
          (mem_adjOf_edgeB g cur nb (hrest nb (List.mem_cons_self _ _)))⟩
      by_cases hde : nb.1 = dest
      · rw [if_pos hde]
        obtain ⟨n, hw⟩ := hreach_nb
        exact absurd (hde ▸ hw) (hnr n)
      · rw [if_neg hde]
        apply ih _ _ _ (fun x hx => hrest x (List.mem_cons_of_mem _ hx))
        intro x hx
        rcases List.mem_append.1 hx with h | h
        · exact hq x h
        · rw [List.mem_singleton.1 h]
          exact hreach_nb

/-- BFS worklist loop of getDistance in the unreachable case: it returns the
-1 sentinel. -/
theorem distLoop_no_reach (g : GraphSt) (src dest : Nat)
    (hnr : ∀ n, ¬ Walk g src dest n) :
    ∀ (fuel : Nat) (q vis : List Nat) (dist : List (Nat × Int)),
    (∀ x ∈ q, ∃ n, Walk g src x n) →
    distLoop g dest fuel q vis dist = -1 := by
  intro fuel
  induction fuel with
  | zero =>
    intro q vis dist _
    rfl
  | succ fuel ih =>
    intro q vis dist hq
    cases q with
    | nil => rfl
    | cons cur q' =>
      have hinner := distInner_no_reach g src dest cur (hq cur (List.mem_cons_self _ _))
        hnr (adjOf g cur) q' vis dist (fun nb hnb => hnb)
        (fun x hx => hq x (List.mem_cons_of_mem _ hx))
      simp only [distLoop]
      revert hinner
      cases hres : distInner dest cur (adjOf g cur) q' vis dist with
      | inl r =>
        intro hinner
        exact absurd hinner not_false
      | inr t =>
        intro hinner
        obtain ⟨q2, vis2, dist2⟩ := t
        exact ih q2 vis2 dist2 hinner

/-- C5: getDistance raises the not-found error exactly when an endpoint is
absent; returns 0 when src = dest; otherwise returns the minimum number of
edges of any walk (equivalently, path) from src to dest, and -1 when dest is
unreachable from src. -/
theorem spec_C5_distance (g : GraphSt) (src dest : Nat) (hwf : WfG g) :
    ((src ∉ g.vertices ∨ dest ∉ g.vertices) →
      getDistance g src dest = Except.error "Vertex not found in graph") ∧
    (src ∈ g.vertices → dest ∈ g.vertices →
      (src = dest → getDistance g src dest = Except.ok 0) ∧
      (src ≠ dest →
        ((∀ n, ¬ Walk g src dest n) → getDistance g src dest = Except.ok (-1)) ∧
        (∀ n : Nat, Walk g src dest n → (∀ j, Walk g src dest j → n ≤ j) →
          getDistance g src dest = Except.ok (n : Int)))) := by
  constructor
  · intro habs
    rw [getDistance, if_neg]
    intro hc
    rcases habs with h | h
    · exact h ((contains_iff_mem _ _).1 hc.1)
    · exact h ((contains_iff_mem _ _).1 hc.2)
  · intro hs hd
    constructor
    · intro he
      rw [getDistance, if_pos ⟨(contains_iff_mem _ _).2 hs, (contains_iff_mem _ _).2 hd⟩,
        if_pos he]
    · intro hne
      have hopen : getDistance g src dest =
          Except.ok (distLoop g dest (g.vertices.length + 1) [src] [src] [(src, 0)]) := by
        rw [getDistance, if_pos ⟨(contains_iff_mem _ _).2 hs, (contains_iff_mem _ _).2 hd⟩,
          if_neg hne]
      constructor
      · intro hnr
        rw [hopen, distLoop_no_reach g src dest hnr _ [src] [src] [(src, 0)]]
        intro x hx
        rw [List.mem_singleton.1 hx]
        exact ⟨0, Walk.nil src⟩
      · intro n hwn hmin
        have hfind0 : alFind src [(src, 0)] = some ((0 : Nat) : Int) := by
          simp [alFind]
        obtain ⟨m, hwm, hminm, heq⟩ := distLoop_spec g hwf src dest
          (g.vertices.length + 1) [src] [src] [(src, 0)]
          (List.mem_cons_self _ _)
          (by
            intro hc
            exact hne (List.mem_singleton.1 hc).symm)
          (fun x hx => hx)
          (fun v hv => by
            rw [List.mem_singleton.1 hv]
            exact ⟨0, hfind0, Walk.nil src, fun j _ => Nat.zero_le j⟩)
          (fun u hu huq => absurd hu huq)
          ⟨0, [src], [], by simp, fun x hx => by
            rw [List.mem_singleton.1 hx]
            exact hfind0, fun x hx => absurd hx (List.not_mem_nil x)⟩
          (by
            have hlt : (g.vertices.filter (fun y => y ∉ ([src] : List Nat))).length <
                g.vertices.length := by
              have := filter_length_lt (fun _ => true) (fun y => y ∉ ([src] : List Nat))
                (fun y _ => rfl) g.vertices src hs rfl (by simp)
              rwa [List.filter_true] at this
            simp only [List.length_singleton]
            omega)
          ⟨n, hwn⟩
        have hmn : m = n := le_antisymm (hminm n hwn) (hmin m hwm)
        rw [hopen, heq, hmn]

/-- C5 witness: the distance specification applied to the directed graph
with edges 1 to 2, 1 to 3 and 2 to 4: a missing endpoint raises, src = dest
gives 0, the sink 4 cannot reach 1 giving -1, and the shortest walk from 1
to 4 has 2 edges. -/
theorem spec_C5_distance_witness :
    getDistance scenE 7 1 = Except.error "Vertex not found in graph" ∧
    getDistance scenE 1 1 = Except.ok 0 ∧
    getDistance scenE 4 1 = Except.ok (-1) ∧
    getDistance scenE 1 4 = Except.ok ((2 : Nat) : Int) := by
  have hwf : WfG scenE :=
    show ∀ p ∈ scenE.adjList, ∀ nb ∈ p.2, nb.1 ∈ scenE.vertices from by decide
  refine ⟨?_, ?_, ?_, ?_⟩
  · exact (spec_C5_distance scenE 7 1 hwf).1 (Or.inl (by decide))
  · exact ((spec_C5_distance scenE 1 1 hwf).2 (by decide) (by decide)).1 rfl
  · refine (((spec_C5_distance scenE 4 1 hwf).2 (by decide) (by decide)).2
      (by decide)).1 ?_
    intro n hw
    have h4 : ∀ x : Nat, edgeB scenE 4 x = false := by
      intro x
      show ((adjOf scenE 4).any fun p => p.1 == x) = false
      rw [show adjOf scenE 4 = [] from by decide]
      rfl
    cases hw with
    | cons h hw2 =>
      rw [h4] at h
      exact Bool.noConfusion h
  · have hw14 : Walk scenE 1 4 2 :=
      Walk.cons (show edgeB scenE 1 2 = true from by decide)
        (Walk.cons (show edgeB scenE 2 4 = true from by decide) (Walk.nil 4))
    refine (((spec_C5_distance scenE 1 4 hwf).2 (by decide) (by decide)).2
      (by decide)).2 2 hw14 ?_
    intro j hj
    by_contra hlt
    push_neg at hlt
    interval_cases j
    · exact absurd (walk_zero scenE 1 4 hj) (by decide)
    · cases hj with
      | cons h hw2 =>
        have hx := walk_zero scenE _ 4 hw2
        subst hx
        rw [show edgeB scenE 1 4 = false from by decide] at h
        exact Bool.noConfusion h

end Graphs
